import Mathlib

/-!
Verification of the term-normalization and transcription-request core of the
`clawkit` speech-to-text shim (`stt/mlx_hot_service.py`).

The regex machinery of `HotWhisperService._normalize_terms` is embedded at the
character level: each `re.sub(pattern, repl, text, flags=re.IGNORECASE)` call
becomes a left-to-right scan (`reSub`) with a matcher for the concrete pattern.
The patterns in the source are of two shapes, both bounded by `\b`:
a case-insensitive literal word (`\bSubsiderAgent\b`, `\bCLA\b`, `\bFallback\b`)
and a case-insensitive two-word phrase with flexible spacing
(`\bSubsider\s+Agent\b`, `\bOpen\s+claw\b`).

Python's `\w`, `\s` and `re.IGNORECASE` case folding are modelled at the ASCII
level (`[A-Za-z0-9_]`, the six ASCII space characters, and `Char.toLower`),
matching the character classes the source's patterns and replacements use.
-/

/-- Python `\w` (ASCII range): letters, digits, underscore. -/
def isWordChar (c : Char) : Bool :=
  c.isAlpha || c.isDigit || c == '_'

/-- Python `\s` (ASCII range): space, tab, newline, carriage return,
vertical tab, form feed. -/
def isSpaceChar (c : Char) : Bool :=
  c == ' ' || c == '\t' || c == '\n' || c == '\r' || c == '\x0b' || c == '\x0c'

/-- A `\b` word boundary holds before a word character iff the previous
character (`none` at the start of the string) is not a word character. -/
def boundaryBefore : Option Char → Bool
  | none => true
  | some c => !isWordChar c

/-- A `\b` word boundary holds after a word character iff the next character
(the head of the remaining input, if any) is not a word character. -/
def boundaryAfter : List Char → Bool
  | [] => true
  | c :: _ => !isWordChar c

/-- Case-insensitive literal prefix match: consume `pat` (up to ASCII case)
from the front of `s`, returning the consumed characters and the rest. -/
def ciConsume : List Char → List Char → Option (List Char × List Char)
  | [], s => some ([], s)
  | _ :: _, [] => none
  | p :: ps, c :: cs =>
    if c.toLower == p.toLower then
      match ciConsume ps cs with
      | some (m, r) => some (c :: m, r)
      | none => none
    else none

/-- Matcher for a pattern `\b<pat>\b` with `re.IGNORECASE`, attempted at the
start of `s`; `prev` is the character just before `s` in the scanned string. -/
def matchWord (pat : List Char) (prev : Option Char) (s : List Char) :
    Option (List Char × List Char) :=
  if boundaryBefore prev then
    match ciConsume pat s with
    | some (m, r) => if boundaryAfter r then some (m, r) else none
    | none => none
  else none

/-- Matcher for a pattern `\b<pat1>\s+<pat2>\b` with `re.IGNORECASE`, attempted
at the start of `s`.  The greedy `\s+` never needs backtracking here because
`pat2` starts with a letter, which is not a space character. -/
def matchTwoWords (pat1 pat2 : List Char) (prev : Option Char) (s : List Char) :
    Option (List Char × List Char) :=
  if boundaryBefore prev then
    match ciConsume pat1 s with
    | some (m1, r1) =>
      let ws := r1.takeWhile isSpaceChar
      let r2 := r1.dropWhile isSpaceChar
      if ws.isEmpty then none
      else
        match ciConsume pat2 r2 with
        | some (m2, r3) =>
          if boundaryAfter r3 then some (m1 ++ ws ++ m2, r3) else none
        | none => none
    | none => none
  else none

/-- Python `str.isupper`: at least one cased character and no lowercase one
(ASCII range). -/
def pyIsUpper (t : List Char) : Bool :=
  t.any (fun c => c.isUpper || c.isLower) && t.all (fun c => !c.isLower)

/-- Python `str.islower`: at least one cased character and no uppercase one
(ASCII range). -/
def pyIsLower (t : List Char) : Bool :=
  t.any (fun c => c.isUpper || c.isLower) && t.all (fun c => !c.isUpper)

/-- `_case_aware_cli` from `mlx_hot_service.py`: decision table mapping a
matched `CLA` token to a `CLI` token whose case mirrors the input, with the
fully-upper form as the fallback for irregular casing. -/
def caseAwareCli (token : List Char) : List Char :=
  if pyIsUpper token then "CLI".data
  else if pyIsLower token then "cli".data
  else if (match token with
           | [] => false
           | c :: rest => c.isUpper && pyIsLower rest) then "Cli".data
  else "CLI".data

/-- One `re.sub` pass: scan left to right; at each position try the matcher;
on a match emit the replacement and resume after the matched text (with `prev`
set to the last matched character of the original string, as Python does); on
failure emit the character and advance.  `fuel` bounds the recursion depth and
is in practice the length of the scanned string (each step consumes at least
one character when the matcher only returns nonempty matches). -/
def reSubAux (M : Option Char → List Char → Option (List Char × List Char))
    (R : List Char → List Char) : Nat → Option Char → List Char → List Char
  | 0, _, s => s
  | fuel + 1, prev, s =>
    match M prev s with
    | some (m, r) => R m ++ reSubAux M R fuel m.getLast? r
    | none =>
      match s with
      | [] => []
      | c :: cs => c :: reSubAux M R fuel (some c) cs

/-- `re.sub(pattern, repl, text)` for a matcher/replacement pair. -/
def reSub (M : Option Char → List Char → Option (List Char × List Char))
    (R : List Char → List Char) (s : List Char) : List Char :=
  reSubAux M R s.length none s

/-- `HotWhisperService._normalize_terms`, on `List Char`: the five ordered
`re.sub` rules of the source, in source order. -/
def normalizeTermsL (text : List Char) : List Char :=
  let o1 := reSub (matchWord "SubsiderAgent".data) (fun _ => "subagent".data) text
  let o2 := reSub (matchTwoWords "Subsider".data "Agent".data)
    (fun _ => "subagent".data) o1
  let o3 := reSub (matchWord "CLA".data) caseAwareCli o2
  let o4 := reSub (matchWord "Fallback".data) (fun _ => "fallback".data) o3
  reSub (matchTwoWords "Open".data "claw".data) (fun _ => "OpenClaw".data) o4

/-- `HotWhisperService._normalize_terms` on `String`. -/
def normalizeTerms (text : String) : String :=
  ⟨normalizeTermsL text.data⟩

/-!
Proof infrastructure for the normalizer: a string decomposes into an
alternation of maximal word-character runs and non-word gaps, and every one of
the five patterns can only match whole word runs (with all-whitespace gaps for
the two-word patterns).  `reScan` is the scanner with an explicit previous
character; `joinItems` / `WFitems` describe the run decomposition; `rwWord`
and `mergeScan` are the token-level effect of a single-word rule and of a
two-word rule.
-/

/-- The scan underlying `reSub`, with an explicit previous character. -/
def reScan (M : Option Char → List Char → Option (List Char × List Char))
    (R : List Char → List Char) (prev : Option Char) (s : List Char) :
    List Char :=
  reSubAux M R s.length prev s

/-- Case-insensitive equality of character lists (ASCII folding). -/
def ciEqB (w pat : List Char) : Bool :=
  w.map Char.toLower == pat.map Char.toLower

/-- Every character is a word character. -/
def wordOnly (l : List Char) : Prop := ∀ c ∈ l, isWordChar c = true

instance (l : List Char) : Decidable (wordOnly l) := by
  unfold wordOnly
  infer_instance

/-- Every character is a non-word character. -/
def gapOnly (l : List Char) : Prop := ∀ c ∈ l, isWordChar c = false

instance (l : List Char) : Decidable (gapOnly l) := by
  unfold gapOnly
  infer_instance

/-- The head, if any, is a non-word character. -/
def headNonWord (l : List Char) : Prop := ∀ c ∈ l.head?, isWordChar c = false

/-- The previous character after scanning past `g`: the last character of `g`
if there is one, the incoming `prev` otherwise. -/
def prevThrough (prev : Option Char) (g : List Char) : Option Char :=
  match g.getLast? with
  | some c => some c
  | none => prev

/-- Reassemble a run decomposition: each item is a word run followed by its
trailing gap. -/
def joinItems : List (List Char × List Char) → List Char
  | [] => []
  | (w, g) :: rest => w ++ (g ++ joinItems rest)

/-- Well-formed run decomposition: word runs are nonempty and all-word, gaps
are all-non-word, and every gap except the final one is nonempty. -/
def WFitems : List (List Char × List Char) → Prop
  | [] => True
  | (w, g) :: rest =>
    w ≠ [] ∧ wordOnly w ∧ gapOnly g ∧ (rest ≠ [] → g ≠ []) ∧ WFitems rest

/-- Token-level effect of a `\b<pat>\b` rule: rewrite every word run that
matches `pat` case-insensitively. -/
def rwWord (pat : List Char) (rep : List Char → List Char)
    (items : List (List Char × List Char)) : List (List Char × List Char) :=
  items.map fun wg => (if ciEqB wg.1 pat then rep wg.1 else wg.1, wg.2)

/-- Whether a `\b<p1>\s+<p2>\b` rule fires at a word run `w` with trailing gap
`g` followed by the word run `w2`. -/
def mergeTestB (p1 p2 : List Char) (w g w2 : List Char) : Bool :=
  ciEqB w p1 && !g.isEmpty && g.all isSpaceChar && ciEqB w2 p2

/-- Token-level effect of a `\b<p1>\s+<p2>\b` rule: a left-to-right scan that
merges each matching word-gap-word triple into the replacement token (which
keeps the second word's trailing gap), resuming after the consumed text. -/
def mergeScan (p1 p2 rep : List Char) :
    List (List Char × List Char) → List (List Char × List Char)
  | [] => []
  | [wg] => [wg]
  | (w, g) :: (w2, g2) :: rest =>
    if mergeTestB p1 p2 w g w2 then
      (rep, g2) :: mergeScan p1 p2 rep rest
    else
      (w, g) :: mergeScan p1 p2 rep ((w2, g2) :: rest)

/-- Adjacent items do not form a match of the two-word rule. -/
def pairOK (p1 p2 : List Char) (a b : List Char × List Char) : Prop :=
  mergeTestB p1 p2 a.1 a.2 b.1 = false

/-- No two adjacent items form a match of the two-word rule. -/
def noMergePair (p1 p2 : List Char) (items : List (List Char × List Char)) :
    Prop :=
  List.Chain' (pairOK p1 p2) items

/-- No word run matches `pat` case-insensitively. -/
def noWordCi (pat : List Char) (items : List (List Char × List Char)) : Prop :=
  ∀ wg ∈ items, ciEqB wg.1 pat = false

/-- Every word run matching `pat` case-insensitively is literally `target`. -/
def allCiExact (pat target : List Char)
    (items : List (List Char × List Char)) : Prop :=
  ∀ wg ∈ items, ciEqB wg.1 pat = true → wg.1 = target

/-- The token-level effect of the whole five-rule pipeline. -/
def tokPipe (items : List (List Char × List Char)) :
    List (List Char × List Char) :=
  mergeScan "Open".data "claw".data "OpenClaw".data
    (rwWord "Fallback".data (fun _ => "fallback".data)
      (rwWord "CLA".data caseAwareCli
        (mergeScan "Subsider".data "Agent".data "subagent".data
          (rwWord "SubsiderAgent".data (fun _ => "subagent".data) items))))

/-!
Service layer: `HotWhisperService`, its language validation, warmup lifecycle,
the `/health` and `/transcribe` handlers.  Python exceptions become `Except`
values; the filesystem is modelled as the list of existing paths, with
`Path.unlink(missing_ok=True)` as best-effort removal.  Wall-clock readings
(`time.time` / `time.perf_counter`) are explicit rational-valued parameters.
The external `mlx_whisper.transcribe` capability is an abstract function from
(audio path, model, language argument, initial prompt) to either a result
dictionary or a raised exception.
-/

/-- `fastapi.HTTPException`: a status code and a detail message. -/
structure HTTPExc where
  status : Nat
  detail : String
deriving DecidableEq

/-- An exception escaping a service routine: either an `HTTPException` or any
other error raised by the transcription capability. -/
inductive Exn where
  | http : HTTPExc → Exn
  | err : String → Exn
deriving DecidableEq

/-- The dictionary returned by the transcription capability: `text` and
`language` may be missing (`None`), `segments` may be missing (defaulted by
`result.get("segments", [])`).  Segments are opaque, of type `σ`. -/
structure CapResult (σ : Type) where
  text : Option String
  language : Option String
  segments : Option (List σ)

/-- The external transcription capability: audio path → model identifier →
validated language argument → initial prompt → result or raised exception. -/
def Capability (σ : Type) : Type :=
  String → String → Option String → String → Except Exn (CapResult σ)

/-- `INITIAL_PROMPT` default from the source. -/
def INITIAL_PROMPT : String :=
  "Terms: subagent, codex, claude, cli, fallback, OpenClaw"

/-- `HotWhisperService` state: model identifier, warmed flag, startup
timestamp. -/
structure ServiceState where
  model : String
  warmed : Bool
  startup_ts : ℚ
deriving DecidableEq

/-- `HotWhisperService.__init__`: records the model, sets `warmed = False`,
records the startup timestamp. -/
def ServiceState.init (model : String) (now : ℚ) : ServiceState :=
  { model := model, warmed := false, startup_ts := now }

/-- `HotWhisperService._language_arg`: `None`/`""`/`"auto"` map to the
auto-detect sentinel `none`; `"zh"`/`"en"` pass through; anything else raises
`HTTPException(400, ...)`. -/
def languageArg (language : Option String) : Except HTTPExc (Option String) :=
  if language = none ∨ language = some "" ∨ language = some "auto" then
    Except.ok none
  else if language ≠ some "zh" ∧ language ≠ some "en" then
    Except.error ⟨400, "language must be one of: auto|zh|en"⟩
  else
    Except.ok language

/-- `HotWhisperService._transcribe`: validate the language (an invalid one
raises before the capability is ever invoked), then call the capability with
the audio path, the service's model, the validated language and the fixed
initial prompt. -/
def serviceTranscribe {σ : Type} (cap : Capability σ) (st : ServiceState)
    (audioPath : String) (language : Option String) :
    Except Exn (CapResult σ) :=
  match languageArg language with
  | Except.error e => Except.error (Exn.http e)
  | Except.ok lang => cap audioPath st.model lang INITIAL_PROMPT

/-- `Path.unlink(missing_ok=True)`: remove the path if present; a missing
path is not an error. -/
def unlinkMissingOk (p : String) (fs : List String) : List String :=
  fs.filter (fun q => q != p)

/-- `HotWhisperService.warmup`: create a temporary silent WAV file, transcribe
it with `language="auto"`, set `warmed = True` on success; the temporary file
is removed in a `finally` block on every path.  There is no `except` clause:
a capability failure leaves `warmed` untouched and the exception propagates
to the caller (modelled by the `Except` component of the result). -/
def warmup {σ : Type} (cap : Capability σ) (warmupPath : String)
    (st : ServiceState) (fs : List String) :
    Except Exn Unit × ServiceState × List String :=
  let fs1 := warmupPath :: fs
  match serviceTranscribe cap st warmupPath (some "auto") with
  | Except.ok _ =>
    (Except.ok (), { st with warmed := true }, unlinkMissingOk warmupPath fs1)
  | Except.error e =>
    (Except.error e, st, unlinkMissingOk warmupPath fs1)

/-- `startup_event`: `await asyncio.to_thread(service.warmup)` — it awaits
warmup and propagates whatever warmup raises. -/
def startupEvent {σ : Type} (cap : Capability σ) (warmupPath : String)
    (st : ServiceState) (fs : List String) :
    Except Exn Unit × ServiceState × List String :=
  warmup cap warmupPath st fs

/-- Python `round(q, ndigits)` up to tie-breaking (Python rounds ties to even
on floats; exact ties are immaterial to the claims checked here). -/
def pyRound (q : ℚ) (ndigits : ℕ) : ℚ :=
  (round (q * (10 : ℚ) ^ ndigits) : ℤ) / (10 : ℚ) ^ ndigits

/-- The `/health` response body. -/
structure HealthResponse where
  ok : Bool
  service : String
  model : String
  warmed : Bool
  uptime_sec : ℚ

/-- The `/health` handler: reads the service state, never mutates it. -/
def healthHandler (st : ServiceState) (now : ℚ) : HealthResponse × ServiceState :=
  ({ ok := true
     service := "mlx-whisper-hot-service"
     model := st.model
     warmed := st.warmed
     uptime_sec := pyRound (now - st.startup_ts) 3 }, st)

/-- Python `str.strip()` on the ASCII whitespace set, on `List Char`. -/
def pyStripL (l : List Char) : List Char :=
  ((l.dropWhile isSpaceChar).reverse.dropWhile isSpaceChar).reverse

/-- Python `str.strip()`. -/
def pyStrip (s : String) : String :=
  ⟨pyStripL s.data⟩

/-- Python `x or ""` for an optional string (`None` and `""` are falsy and
yield `""`). -/
def orEmpty : Option String → String
  | none => ""
  | some s => s

/-- The `/transcribe` response body. -/
structure TranscribeResponse (σ : Type) where
  text : String
  language : Option String
  requested_language : String
  elapsed_ms : ℚ
  segments : List σ
  model : String

/-- The `/transcribe` handler: write the upload to a scoped temporary file
`tmpName`; inside `try`: time the `service._transcribe` call between the two
clock readings `t0` and `t1`, normalize the stripped text, and build the
response; the `finally` block unlinks the temporary file on every exit path,
including a raised exception (which propagates as `Except.error`). -/
def transcribeHandler {σ : Type} (cap : Capability σ) (st : ServiceState)
    (tmpName : String) (language : String) (t0 t1 : ℚ) (fs : List String) :
    Except Exn (TranscribeResponse σ) × ServiceState × List String :=
  let fs1 := tmpName :: fs
  match serviceTranscribe cap st tmpName (some language) with
  | Except.error e => (Except.error e, st, unlinkMissingOk tmpName fs1)
  | Except.ok result =>
    let elapsed_ms := pyRound ((t1 - t0) * 1000) 2
    let text := normalizeTerms (pyStrip (orEmpty result.text))
    (Except.ok
      { text := text
        language := result.language
        requested_language := language
        elapsed_ms := elapsed_ms
        segments := result.segments.getD []
        model := st.model }, st, unlinkMissingOk tmpName fs1)

theorem not_mem_unlinkMissingOk (p : String) (fs : List String) :
    p ∉ unlinkMissingOk p fs := by
  simp [unlinkMissingOk, List.mem_filter]

theorem pyRound_nonneg {q : ℚ} (n : ℕ) (h : 0 ≤ q) : 0 ≤ pyRound q n := by
  unfold pyRound
  apply div_nonneg
  · have h0 : (0 : ℤ) ≤ round (q * (10 : ℚ) ^ n) := by
      rw [round_eq]
      apply Int.floor_nonneg.mpr
      have : 0 ≤ q * (10 : ℚ) ^ n := mul_nonneg h (by positivity)
      linarith
    exact_mod_cast h0
  · positivity

/-- C3: for every invocation of the `/transcribe` handler, whether the
transcription capability returns normally or raises, the scoped temporary file
created for that request no longer exists on disk when the handler exits:
deletion is attempted unconditionally in the `finally` block, and a missing
file is not an error (`missing_ok=True`). -/
theorem transcribe_tmpfile_removed (σ : Type) (cap : Capability σ)
    (st : ServiceState) (tmpName language : String) (t0 t1 : ℚ)
    (fs : List String) :
    tmpName ∉ (transcribeHandler cap st tmpName language t0 t1 fs).2.2 := by
  unfold transcribeHandler
  cases serviceTranscribe cap st tmpName (some language) with
  | error e => exact not_mem_unlinkMissingOk _ _
  | ok result => exact not_mem_unlinkMissingOk _ _

/-- C6: language validation maps `None`, the empty string and the literal
`"auto"` to the same auto-detect sentinel; passes `"zh"` and `"en"` through
unchanged; and for every other value (e.g. `"fr"`) fails with an
`HTTPException` carrying client-error status 400 and an explanatory message,
before any transcription work occurs (the capability is never consulted). -/
theorem language_validation_spec :
    languageArg none = Except.ok none ∧
    languageArg (some "") = Except.ok none ∧
    languageArg (some "auto") = Except.ok none ∧
    languageArg (some "zh") = Except.ok (some "zh") ∧
    languageArg (some "en") = Except.ok (some "en") ∧
    languageArg (some "fr") =
      Except.error ⟨400, "language must be one of: auto|zh|en"⟩ ∧
    (∀ l : String, l ≠ "" → l ≠ "auto" → l ≠ "zh" → l ≠ "en" →
      languageArg (some l) =
        Except.error ⟨400, "language must be one of: auto|zh|en"⟩) ∧
    (∀ (σ : Type) (cap : Capability σ) (st : ServiceState) (path : String)
      (lang : Option String) (e : HTTPExc), languageArg lang = Except.error e →
      serviceTranscribe cap st path lang = Except.error (Exn.http e)) := by
  refine ⟨rfl, rfl, rfl, rfl, rfl, rfl, ?_, ?_⟩
  · intro l h1 h2 h3 h4
    simp [languageArg, h1, h2, h3, h4]
  · intro σ cap st path lang e h
    simp [serviceTranscribe, h]

theorem language_validation_spec_witness :
    ("fr" : String) ≠ "" ∧
    languageArg (some "fr") =
      Except.error ⟨400, "language must be one of: auto|zh|en"⟩ ∧
    serviceTranscribe (σ := Unit)
      (fun _ _ _ _ => Except.ok ⟨none, none, none⟩)
      (ServiceState.init "m" 0) "/tmp/a.wav" (some "fr") =
      Except.error (Exn.http ⟨400, "language must be one of: auto|zh|en"⟩) := by
  refine ⟨by decide, ?_, ?_⟩
  · exact language_validation_spec.2.2.2.2.2.2.1 "fr" (by decide) (by decide)
      (by decide) (by decide)
  · exact language_validation_spec.2.2.2.2.2.2.2 Unit
      (fun _ _ _ _ => Except.ok ⟨none, none, none⟩)
      (ServiceState.init "m" 0) "/tmp/a.wav" (some "fr") _ rfl

/-- C2 counterexample: the claim says a failure of the transcription call
inside `warmup` is recorded solely by the warmed flag remaining false and does
not escape.  In the code, `warmup` has no `except` clause and `startup_event`
merely awaits it, so the exception propagates out of the startup routine
uncaught: on a failing capability, `startupEvent` yields `Except.error`, not a
normal return. -/
theorem warmup_failure_escapes_cex :
    (startupEvent (σ := Unit) (fun _ _ _ _ => Except.error (Exn.err "boom"))
      "/tmp/warmup.wav" (ServiceState.init "m" 0) []).1 =
      Except.error (Exn.err "boom") ∧
    (startupEvent (σ := Unit) (fun _ _ _ _ => Except.error (Exn.err "boom"))
      "/tmp/warmup.wav" (ServiceState.init "m" 0) []).1 ≠ Except.ok () := by
  exact ⟨rfl, fun h => nomatch h⟩

/-- C2 (amended): if the transcription call inside `warmup` raises, the warmed
flag is left unchanged (hence still false when starting from a fresh service)
and the warmup temporary file is still deleted by the `finally` block, but the
exception propagates out of `warmup` — and hence out of `startup_event`, which
awaits it without catching — rather than being swallowed. -/
theorem warmup_failure_flag_and_cleanup (σ : Type) (cap : Capability σ)
    (path : String) (st : ServiceState) (fs : List String) (e : Exn)
    (h : cap path st.model none INITIAL_PROMPT = Except.error e) :
    warmup cap path st fs =
      (Except.error e, st, unlinkMissingOk path (path :: fs)) ∧
    (warmup cap path st fs).2.1.warmed = st.warmed ∧
    path ∉ (warmup cap path st fs).2.2 ∧
    (startupEvent cap path st fs).1 = Except.error e := by
  have hserv : serviceTranscribe cap st path (some "auto") = Except.error e := by
    simpa [serviceTranscribe, languageArg] using h
  refine ⟨?_, ?_, ?_, ?_⟩ <;>
    simp [warmup, startupEvent, hserv, not_mem_unlinkMissingOk]

theorem warmup_failure_flag_and_cleanup_witness :
    (fun (_ _ : String) (_ : Option String) (_ : String) =>
        (Except.error (Exn.err "boom") : Except Exn (CapResult Unit)))
        "/tmp/w.wav" (ServiceState.init "m" 0).model none INITIAL_PROMPT =
      Except.error (Exn.err "boom") ∧
    (warmup (σ := Unit) (fun _ _ _ _ => Except.error (Exn.err "boom"))
        "/tmp/w.wav" (ServiceState.init "m" 0) []).2.1.warmed = false := by
  have h := warmup_failure_flag_and_cleanup Unit
    (fun _ _ _ _ => Except.error (Exn.err "boom")) "/tmp/w.wav"
    (ServiceState.init "m" 0) [] (Exn.err "boom") rfl
  exact ⟨rfl, h.2.1⟩

/-- C7: for every successful `/transcribe` request the response contains the
capability text with the term normalizer applied (after stripping), the
detected language, the originally requested language echoed unchanged, the
elapsed wall-clock time in milliseconds rounded to 2 decimals (non-negative
whenever the clock is monotone), the capability's segment sequence passed
through unmodified, and the configured model identifier. -/
theorem transcribe_success_response (σ : Type) (cap : Capability σ)
    (st : ServiceState) (tmpName language : String) (t0 t1 : ℚ)
    (fs : List String) (result : CapResult σ)
    (h : serviceTranscribe cap st tmpName (some language) = Except.ok result)
    (hc : t0 ≤ t1) :
    transcribeHandler cap st tmpName language t0 t1 fs =
      (Except.ok
        { text := normalizeTerms (pyStrip (orEmpty result.text))
          language := result.language
          requested_language := language
          elapsed_ms := pyRound ((t1 - t0) * 1000) 2
          segments := result.segments.getD []
          model := st.model }, st, unlinkMissingOk tmpName (tmpName :: fs)) ∧
    0 ≤ pyRound ((t1 - t0) * 1000) 2 := by
  constructor
  · unfold transcribeHandler
    rw [h]
  · exact pyRound_nonneg 2 (by nlinarith)

theorem transcribe_success_response_witness :
    serviceTranscribe (σ := Unit)
      (fun _ _ _ _ => Except.ok ⟨some " CLA done ", some "en", some []⟩)
      (ServiceState.init "whisper-small" 0) "/tmp/u.wav" (some "auto") =
      Except.ok ⟨some " CLA done ", some "en", some []⟩ ∧
    (0 : ℚ) ≤ 2 ∧
    transcribeHandler (σ := Unit)
      (fun _ _ _ _ => Except.ok ⟨some " CLA done ", some "en", some []⟩)
      (ServiceState.init "whisper-small" 0) "/tmp/u.wav" "auto" 0 2 [] =
      (Except.ok
        { text := normalizeTerms (pyStrip (orEmpty (some " CLA done ")))
          language := some "en"
          requested_language := "auto"
          elapsed_ms := pyRound ((2 - 0) * 1000) 2
          segments := []
          model := "whisper-small" }, ServiceState.init "whisper-small" 0,
        unlinkMissingOk "/tmp/u.wav" ["/tmp/u.wav"]) := by
  refine ⟨rfl, by norm_num, ?_⟩
  exact (transcribe_success_response Unit
    (fun _ _ _ _ => Except.ok ⟨some " CLA done ", some "en", some []⟩)
    (ServiceState.init "whisper-small" 0) "/tmp/u.wav" "auto" 0 2 []
    ⟨some " CLA done ", some "en", some []⟩ rfl (by norm_num)).1

/-- C8: the warmed flag starts false at construction, transitions false→true
at most once (on the first successful warmup), is never reset to false, and is
mutated only by the warmup routine: the health handler and the transcribe
handler return the service state unchanged. -/
theorem warmed_flag_lifecycle :
    (∀ (m : String) (now : ℚ), (ServiceState.init m now).warmed = false) ∧
    (∀ (σ : Type) (cap : Capability σ) (p : String) (st : ServiceState)
      (fs : List String), st.warmed = true →
      (warmup cap p st fs).2.1.warmed = true) ∧
    (∀ (σ : Type) (cap : Capability σ) (p : String) (st : ServiceState)
      (fs : List String) (u : Unit), (warmup cap p st fs).1 = Except.ok u →
      (warmup cap p st fs).2.1 = { st with warmed := true }) ∧
    (∀ (σ : Type) (cap : Capability σ) (p : String) (st : ServiceState)
      (fs : List String) (e : Exn), (warmup cap p st fs).1 = Except.error e →
      (warmup cap p st fs).2.1 = st) ∧
    (∀ (st : ServiceState) (now : ℚ), (healthHandler st now).2 = st ∧
      (healthHandler st now).1.warmed = st.warmed) ∧
    (∀ (σ : Type) (cap : Capability σ) (st : ServiceState)
      (tmpName language : String) (t0 t1 : ℚ) (fs : List String),
      (transcribeHandler cap st tmpName language t0 t1 fs).2.1 = st) := by
  refine ⟨fun m now => rfl, ?_, ?_, ?_, fun st now => ⟨rfl, rfl⟩, ?_⟩
  · intro σ cap p st fs hw
    unfold warmup
    cases serviceTranscribe cap st p (some "auto") <;> simp [hw]
  · intro σ cap p st fs u h
    unfold warmup at h ⊢
    cases hst : serviceTranscribe cap st p (some "auto") with
    | error e => rw [hst] at h; simp at h
    | ok r => rfl
  · intro σ cap p st fs e h
    unfold warmup at h ⊢
    cases hst : serviceTranscribe cap st p (some "auto") with
    | error e2 => rfl
    | ok r => rw [hst] at h; simp at h
  · intro σ cap st tmpName language t0 t1 fs
    unfold transcribeHandler
    cases serviceTranscribe cap st tmpName (some language) <;> rfl

theorem warmed_flag_lifecycle_witness :
    (ServiceState.init "m" 0).warmed = false ∧
    (warmup (σ := Unit) (fun _ _ _ _ => Except.ok ⟨none, none, none⟩)
        "/tmp/w.wav" (ServiceState.init "m" 0) []).2.1 =
      { ServiceState.init "m" 0 with warmed := true } ∧
    (warmup (σ := Unit) (fun _ _ _ _ => Except.error (Exn.err "x"))
        "/tmp/w.wav" { ServiceState.init "m" 0 with warmed := true }
        []).2.1.warmed = true := by
  refine ⟨warmed_flag_lifecycle.1 "m" 0, ?_, ?_⟩
  · exact warmed_flag_lifecycle.2.2.1 Unit
      (fun _ _ _ _ => Except.ok ⟨none, none, none⟩) "/tmp/w.wav"
      (ServiceState.init "m" 0) [] () rfl
  · exact warmed_flag_lifecycle.2.1 Unit
      (fun _ _ _ _ => Except.error (Exn.err "x")) "/tmp/w.wav"
      { ServiceState.init "m" 0 with warmed := true } [] rfl

/-- C10: for every capability result, the `text` field of a successful
`/transcribe` response equals the normalizer applied to the capability's text
with leading and trailing whitespace stripped first; a missing (`None`) text
field is treated as the empty string, so the response text is then empty
rather than an error. -/
theorem response_text_normalized_stripped (σ : Type) (cap : Capability σ)
    (st : ServiceState) (tmpName language : String) (t0 t1 : ℚ)
    (fs : List String) (result : CapResult σ)
    (h : serviceTranscribe cap st tmpName (some language) = Except.ok result) :
    ∃ resp : TranscribeResponse σ,
      (transcribeHandler cap st tmpName language t0 t1 fs).1 =
        Except.ok resp ∧
      resp.text = normalizeTerms (pyStrip (orEmpty result.text)) ∧
      (result.text = none → resp.text = "") := by
  refine ⟨{ text := normalizeTerms (pyStrip (orEmpty result.text))
            language := result.language
            requested_language := language
            elapsed_ms := pyRound ((t1 - t0) * 1000) 2
            segments := result.segments.getD []
            model := st.model }, ?_, rfl, ?_⟩
  · unfold transcribeHandler
    rw [h]
  · intro hnone
    rw [hnone]
    show normalizeTerms (pyStrip (orEmpty none)) = ""
    decide

theorem response_text_normalized_stripped_witness :
    serviceTranscribe (σ := Unit)
      (fun _ _ _ _ => Except.ok ⟨none, none, none⟩)
      (ServiceState.init "m" 0) "/tmp/u.wav" (some "en") =
      Except.ok ⟨none, none, none⟩ ∧
    ∃ resp : TranscribeResponse Unit,
      (transcribeHandler (σ := Unit)
        (fun _ _ _ _ => Except.ok ⟨none, none, none⟩)
        (ServiceState.init "m" 0) "/tmp/u.wav" "en" 0 1 []).1 =
        Except.ok resp ∧ resp.text = "" := by
  refine ⟨rfl, ?_⟩
  obtain ⟨resp, h1, h2, h3⟩ := response_text_normalized_stripped Unit
    (fun _ _ _ _ => Except.ok ⟨none, none, none⟩)
    (ServiceState.init "m" 0) "/tmp/u.wav" "en" 0 1 [] ⟨none, none, none⟩ rfl
  exact ⟨resp, h1, h3 rfl⟩

/-- C4: the abbreviation rule never alters the two protected whole words:
`normalize("CLASS CLAUDE")` leaves both unchanged, and more generally, for any
word of 4 or more word characters sharing the 3-letter prefix `CLA` (case
insensitively), the `\bCLA\b` matcher never fires at that word, because the
trailing word boundary fails on the fourth word character. -/
theorem cla_rule_protected_words :
    normalizeTerms "CLASS CLAUDE" = "CLASS CLAUDE" ∧
    (∀ (prev : Option Char) (c1 c2 c3 c4 : Char) (rest : List Char),
      c1.toLower = 'c' → c2.toLower = 'l' → c3.toLower = 'a' →
      isWordChar c4 = true →
      matchWord "CLA".data prev (c1 :: c2 :: c3 :: c4 :: rest) = none) := by
  constructor
  · decide
  · intro prev c1 c2 c3 c4 rest h1 h2 h3 h4
    have hC : ('C' : Char).toLower = 'c' := by decide
    have hL : ('L' : Char).toLower = 'l' := by decide
    have hA : ('A' : Char).toLower = 'a' := by decide
    simp [matchWord, ciConsume, hC, hL, hA, h1, h2, h3, boundaryAfter, h4]

theorem cla_rule_protected_words_witness :
    ('C' : Char).toLower = 'c' ∧ ('L' : Char).toLower = 'l' ∧
    ('A' : Char).toLower = 'a' ∧ isWordChar 'S' = true ∧
    matchWord "CLA".data none ('C' :: 'L' :: 'A' :: 'S' :: "S".data) = none :=
  ⟨by decide, by decide, by decide, by decide,
    cla_rule_protected_words.2 none 'C' 'L' 'A' 'S' "S".data (by decide)
      (by decide) (by decide) (by decide)⟩

/-- C5: the abbreviation rule rewrites a standalone whole-word match with case
preserved by a decision table: fully-upper `"CLA"` yields `"CLI"`, fully-lower
`"cla"` yields `"cli"`, title-case `"Cla"` yields `"Cli"`, the irregular
`"cLa"` yields the fully-upper fallback `"CLI"`, and in general every token
that is neither fully upper, fully lower, nor title case is mapped to the
fully-upper fallback, so the literal irregular token never survives. -/
theorem cla_case_table :
    normalizeTerms "CLA" = "CLI" ∧
    normalizeTerms "cla" = "cli" ∧
    normalizeTerms "Cla" = "Cli" ∧
    normalizeTerms "cLa" = "CLI" ∧
    (∀ t : List Char, pyIsUpper t = false → pyIsLower t = false →
      (match t with
       | [] => false
       | c :: rest => c.isUpper && pyIsLower rest) = false →
      caseAwareCli t = "CLI".data) := by
  refine ⟨by decide, by decide, by decide, by decide, ?_⟩
  intro t h1 h2 h3
  simp [caseAwareCli, h1, h2, h3]

theorem cla_case_table_witness :
    pyIsUpper "cLa".data = false ∧ pyIsLower "cLa".data = false ∧
    (match "cLa".data with
     | [] => false
     | c :: rest => c.isUpper && pyIsLower rest) = false ∧
    caseAwareCli "cLa".data = "CLI".data :=
  ⟨by decide, by decide, by decide,
    cla_case_table.2.2.2.2 "cLa".data (by decide) (by decide) (by decide)⟩

theorem char_isUpper_iff (c : Char) :
    c.isUpper = true ↔ 65 ≤ c.toNat ∧ c.toNat ≤ 90 := by
  simp [Char.isUpper, ge_iff_le, UInt32.le_def, BitVec.le_def, Char.toNat,
    UInt32.toNat]

theorem char_isLower_iff (c : Char) :
    c.isLower = true ↔ 97 ≤ c.toNat ∧ c.toNat ≤ 122 := by
  simp [Char.isLower, ge_iff_le, UInt32.le_def, BitVec.le_def, Char.toNat,
    UInt32.toNat]

theorem toNat_ofNat_valid {n : Nat} (h : n.isValidChar) :
    (Char.ofNat n).toNat = n := by
  rw [Char.ofNat, dif_pos h]
  rfl

theorem toLower_eq_ite (c : Char) :
    c.toLower = if 65 ≤ c.toNat ∧ c.toNat ≤ 90 then Char.ofNat (c.toNat + 32)
      else c := by
  rw [Char.toLower]

theorem isWordChar_toLower (c : Char) :
    isWordChar c.toLower = isWordChar c := by
  rw [toLower_eq_ite]
  split
  · rename_i h
    have hv : (c.toNat + 32).isValidChar := by
      left
      omega
    have ht : (Char.ofNat (c.toNat + 32)).toNat = c.toNat + 32 :=
      toNat_ofNat_valid hv
    have h1 : (Char.ofNat (c.toNat + 32)).isLower = true := by
      rw [char_isLower_iff, ht]
      omega
    have h2 : c.isUpper = true := by
      rw [char_isUpper_iff]
      omega
    simp [isWordChar, Char.isAlpha, h1, h2]
  · rfl

theorem space_not_word {c : Char} (hs : isSpaceChar c = true) :
    isWordChar c = false := by
  simp [isSpaceChar] at hs
  rcases hs with ((((h | h) | h) | h) | h) | h <;> subst h <;> decide

theorem word_not_space {c : Char} (hw : isWordChar c = true) :
    isSpaceChar c = false := by
  cases hs : isSpaceChar c with
  | false => rfl
  | true => rw [space_not_word hs] at hw; cases hw

theorem ciConsume_exact {pat w : List Char} (t : List Char)
    (h : w.map Char.toLower = pat.map Char.toLower) :
    ciConsume pat (w ++ t) = some (w, t) := by
  induction pat generalizing w with
  | nil =>
    cases w with
    | nil => rfl
    | cons c w2 => simp at h
  | cons p ps ih =>
    cases w with
    | nil => simp at h
    | cons c w2 =>
      simp only [List.map_cons, List.cons.injEq] at h
      obtain ⟨h1, h2⟩ := h
      simp [ciConsume, h1, ih h2]

theorem ciConsume_sound {pat s m r : List Char}
    (h : ciConsume pat s = some (m, r)) :
    s = m ++ r ∧ m.map Char.toLower = pat.map Char.toLower := by
  induction pat generalizing s m r with
  | nil =>
    simp only [ciConsume, Option.some.injEq, Prod.mk.injEq] at h
    obtain ⟨h1, h2⟩ := h
    subst h1
    subst h2
    exact ⟨rfl, rfl⟩
  | cons p ps ih =>
    cases s with
    | nil => simp [ciConsume] at h
    | cons c cs =>
      rw [ciConsume] at h
      cases htl : (c.toLower == p.toLower) with
      | false => rw [htl] at h; simp at h
      | true =>
        rw [htl] at h
        simp only [if_true] at h
        cases hcc : ciConsume ps cs with
        | none => rw [hcc] at h; simp at h
        | some mr =>
          obtain ⟨m2, r2⟩ := mr
          rw [hcc] at h
          simp only [Option.some.injEq, Prod.mk.injEq] at h
          obtain ⟨h1, h2⟩ := h
          subst h1
          subst h2
          obtain ⟨hs, hm⟩ := ih hcc
          subst hs
          refine ⟨rfl, ?_⟩
          simp [hm, beq_iff_eq.mp htl]

theorem ciConsume_head_nonword {pat : List Char} (hp : wordOnly pat)
    (hpne : pat ≠ []) {c : Char} (hc : isWordChar c = false)
    (cs : List Char) : ciConsume pat (c :: cs) = none := by
  cases pat with
  | nil => exact absurd rfl hpne
  | cons p ps =>
    have hpw : isWordChar p = true := hp p (by simp)
    have hct : isWordChar c.toLower = false := by
      rw [isWordChar_toLower]; exact hc
    have hpt : isWordChar p.toLower = true := by
      rw [isWordChar_toLower]; exact hpw
    have hne : (c.toLower == p.toLower) = false := by
      rw [beq_eq_false_iff_ne]
      intro he
      rw [he, hpt] at hct
      cases hct
    simp [ciConsume, hne]

theorem wordOnly_of_ciEq {m pat : List Char}
    (h : m.map Char.toLower = pat.map Char.toLower) (hp : wordOnly pat) :
    wordOnly m := by
  induction m generalizing pat with
  | nil => intro c hc; cases hc
  | cons a m2 ih =>
    cases pat with
    | nil => simp at h
    | cons p ps =>
      simp only [List.map_cons, List.cons.injEq] at h
      obtain ⟨h1, h2⟩ := h
      intro c hc
      rcases List.mem_cons.mp hc with rfl | hc2
      · have := hp p (by simp)
        rw [← isWordChar_toLower c, h1, isWordChar_toLower]
        exact this
      · exact ih h2 (fun d hd => hp d (List.mem_cons_of_mem _ hd)) c hc2

theorem ciEqB_iff {w pat : List Char} :
    ciEqB w pat = true ↔ w.map Char.toLower = pat.map Char.toLower := by
  simp [ciEqB]

theorem ciEqB_false_iff {w pat : List Char} :
    ciEqB w pat = false ↔ w.map Char.toLower ≠ pat.map Char.toLower := by
  simp [ciEqB]

theorem ciConsume_word_split {pat w t m r : List Char} (hw : wordOnly w)
    (hp : wordOnly pat) (ht : headNonWord t)
    (h : ciConsume pat (w ++ t) = some (m, r)) :
    (m = w ∧ r = t) ∨ (∃ d r2, r = d :: r2 ∧ isWordChar d = true) := by
  obtain ⟨heq, hmap⟩ := ciConsume_sound h
  rcases List.append_eq_append_iff.mp heq with ⟨u, hm, hr⟩ | ⟨u, hw2, hr⟩
  · cases u with
    | nil =>
      left
      rw [List.append_nil] at hm
      rw [List.nil_append] at hr
      exact ⟨hm, hr.symm⟩
    | cons d u2 =>
      exfalso
      have hd : isWordChar d = false := by
        apply ht
        rw [hr]
        rfl
      have hdm : d ∈ m := by rw [hm]; simp
      have : isWordChar d = true := wordOnly_of_ciEq hmap hp d hdm
      rw [hd] at this
      cases this
  · cases u with
    | nil =>
      left
      rw [List.append_nil] at hw2
      rw [List.nil_append] at hr
      exact ⟨hw2.symm, hr⟩
    | cons d u2 =>
      right
      refine ⟨d, u2 ++ t, hr, ?_⟩
      apply hw
      rw [hw2]
      simp

theorem boundaryAfter_of_headNonWord {t : List Char} (ht : headNonWord t) :
    boundaryAfter t = true := by
  cases t with
  | nil => rfl
  | cons d t2 =>
    have hd : isWordChar d = false := ht d rfl
    simp [boundaryAfter, hd]

theorem dropWhile_nil_all {α : Type} {p : α → Bool} {l : List α}
    (h : l.dropWhile p = []) : ∀ a ∈ l, p a = true := by
  induction l with
  | nil => intro a ha; cases ha
  | cons x xs ih =>
    intro a ha
    rw [List.dropWhile_cons] at h
    cases hp : p x with
    | false => rw [hp] at h; simp at h
    | true =>
      rw [hp] at h
      simp only [if_true] at h
      rcases List.mem_cons.mp ha with rfl | ha2
      · exact hp
      · exact ih h a ha2

theorem dropWhile_head_false {α : Type} {p : α → Bool} {l l2 : List α} {d : α}
    (h : l.dropWhile p = d :: l2) : p d = false := by
  induction l with
  | nil => simp at h
  | cons x xs ih =>
    rw [List.dropWhile_cons] at h
    cases hp : p x with
    | false =>
      rw [hp] at h
      simp only [if_neg Bool.false_ne_true] at h
      cases h
      exact hp
    | true =>
      rw [hp] at h
      simp only [if_true] at h
      exact ih h

theorem mem_of_mem_dropWhile {α : Type} {p : α → Bool} {l : List α} {a : α}
    (h : a ∈ l.dropWhile p) : a ∈ l :=
  (List.dropWhile_sublist p).subset h

theorem matchWord_none_of_head_nonword {pat : List Char} (hp : wordOnly pat)
    (hpne : pat ≠ []) (prev : Option Char) {c : Char}
    (hc : isWordChar c = false) (cs : List Char) :
    matchWord pat prev (c :: cs) = none := by
  simp [matchWord, ciConsume_head_nonword hp hpne hc]

theorem matchTwoWords_none_of_head_nonword {p1 p2 : List Char}
    (hp1 : wordOnly p1) (hp1ne : p1 ≠ []) (prev : Option Char) {c : Char}
    (hc : isWordChar c = false) (cs : List Char) :
    matchTwoWords p1 p2 prev (c :: cs) = none := by
  simp [matchTwoWords, ciConsume_head_nonword hp1 hp1ne hc]

theorem matchWord_none_of_word_prev {pat s : List Char} {c : Char}
    (hc : isWordChar c = true) : matchWord pat (some c) s = none := by
  simp [matchWord, boundaryBefore, hc]

theorem matchTwoWords_none_of_word_prev {p1 p2 s : List Char} {c : Char}
    (hc : isWordChar c = true) : matchTwoWords p1 p2 (some c) s = none := by
  simp [matchTwoWords, boundaryBefore, hc]

theorem matchWord_valid {pat : List Char} (hpne : pat ≠ [])
    {prev : Option Char} {s m r : List Char}
    (h : matchWord pat prev s = some (m, r)) : s = m ++ r ∧ m ≠ [] := by
  unfold matchWord at h
  split at h
  · cases hcc : ciConsume pat s with
    | none => rw [hcc] at h; simp at h
    | some mr =>
      obtain ⟨m2, r2⟩ := mr
      rw [hcc] at h
      simp only [] at h
      split at h
      · simp only [Option.some.injEq, Prod.mk.injEq] at h
        obtain ⟨h1, h2⟩ := h
        subst h1
        subst h2
        obtain ⟨hs, hm⟩ := ciConsume_sound hcc
        refine ⟨hs, ?_⟩
        intro hnil
        rw [hnil] at hm
        simp at hm
        exact hpne hm
      · simp at h
  · simp at h

theorem matchTwoWords_valid {p1 p2 : List Char} {prev : Option Char}
    {s m r : List Char} (h : matchTwoWords p1 p2 prev s = some (m, r)) :
    s = m ++ r ∧ m ≠ [] := by
  unfold matchTwoWords at h
  split at h
  · cases hcc : ciConsume p1 s with
    | none => rw [hcc] at h; simp at h
    | some mr =>
      obtain ⟨m1, r1⟩ := mr
      rw [hcc] at h
      simp only [] at h
      split at h
      · simp at h
      · rename_i hwsne
        cases hcc2 : ciConsume p2 (r1.dropWhile isSpaceChar) with
        | none => rw [hcc2] at h; simp at h
        | some mr2 =>
          obtain ⟨m2, r3⟩ := mr2
          rw [hcc2] at h
          simp only [] at h
          split at h
          · simp only [Option.some.injEq, Prod.mk.injEq] at h
            obtain ⟨h1, h2⟩ := h
            subst h1
            subst h2
            obtain ⟨hs1, _⟩ := ciConsume_sound hcc
            obtain ⟨hs2, _⟩ := ciConsume_sound hcc2
            constructor
            · have hr1 : r1 = r1.takeWhile isSpaceChar ++ (m2 ++ r3) := by
                conv_lhs => rw [← List.takeWhile_append_dropWhile isSpaceChar r1]
                rw [hs2]
              rw [hs1]
              conv_lhs => rw [hr1]
              simp
            · intro hnil
              have : r1.takeWhile isSpaceChar = [] := by
                rcases List.append_eq_nil.mp
                  (List.append_eq_nil.mp hnil).1 with ⟨-, h2⟩
                exact h2
              rw [List.isEmpty_iff] at hwsne
              exact hwsne this
          · simp at h
  · simp at h

theorem matchWord_at_word {pat w t : List Char} {prev : Option Char}
    (hb : boundaryBefore prev = true)
    (hci : w.map Char.toLower = pat.map Char.toLower) (ht : headNonWord t) :
    matchWord pat prev (w ++ t) = some (w, t) := by
  simp [matchWord, hb, ciConsume_exact t hci, boundaryAfter_of_headNonWord ht]

theorem matchWord_at_word_none {pat w t : List Char} (prev : Option Char)
    (hw : wordOnly w) (hp : wordOnly pat) (ht : headNonWord t)
    (hne : w.map Char.toLower ≠ pat.map Char.toLower) :
    matchWord pat prev (w ++ t) = none := by
  cases hb : boundaryBefore prev with
  | false => simp [matchWord, hb]
  | true =>
    cases hcc : ciConsume pat (w ++ t) with
    | none => simp [matchWord, hb, hcc]
    | some mr =>
      obtain ⟨m, r⟩ := mr
      rcases ciConsume_word_split hw hp ht hcc with ⟨hm, hr⟩ | ⟨d, r2, hr, hd⟩
      · have := (ciConsume_sound hcc).2
        rw [hm] at this
        exact absurd this hne
      · subst hr
        simp [matchWord, hb, hcc, boundaryAfter, hd]

theorem matchTwoWords_eval {p1 p2 : List Char} {prev : Option Char}
    {s m1 r1 : List Char} (hb : boundaryBefore prev = true)
    (hcc : ciConsume p1 s = some (m1, r1)) :
    matchTwoWords p1 p2 prev s =
      (if (r1.takeWhile isSpaceChar).isEmpty then none
       else
         match ciConsume p2 (r1.dropWhile isSpaceChar) with
         | some (m2, r3) =>
           if boundaryAfter r3 then
             some (m1 ++ r1.takeWhile isSpaceChar ++ m2, r3)
           else none
         | none => none) := by
  unfold matchTwoWords
  rw [hb, hcc]
  rfl

theorem matchTwoWords_not_p1 {p1 p2 w t : List Char} (prev : Option Char)
    (hw : wordOnly w) (hp1 : wordOnly p1) (ht : headNonWord t)
    (hne : w.map Char.toLower ≠ p1.map Char.toLower) :
    matchTwoWords p1 p2 prev (w ++ t) = none := by
  cases hb : boundaryBefore prev with
  | false => simp [matchTwoWords, hb]
  | true =>
    cases hcc : ciConsume p1 (w ++ t) with
    | none => simp [matchTwoWords, hb, hcc]
    | some mr =>
      obtain ⟨m1, r1⟩ := mr
      rcases ciConsume_word_split hw hp1 ht hcc with ⟨hm, hr⟩ | ⟨d, r2, hr, hd⟩
      · have := (ciConsume_sound hcc).2
        rw [hm] at this
        exact absurd this hne
      · subst hr
        have hds : isSpaceChar d = false := word_not_space hd
        rw [matchTwoWords_eval hb hcc]
        simp [List.takeWhile_cons, hds]

theorem matchTwoWords_full_match {p1 p2 w g1 w2 t2 : List Char}
    {prev : Option Char} (hb : boundaryBefore prev = true)
    (h1 : w.map Char.toLower = p1.map Char.toLower)
    (hg1ne : g1 ≠ []) (hg1sp : ∀ c ∈ g1, isSpaceChar c = true)
    (h2 : w2.map Char.toLower = p2.map Char.toLower)
    (hw2ne : w2 ≠ []) (hw2w : wordOnly w2) (ht : headNonWord t2) :
    matchTwoWords p1 p2 prev (w ++ (g1 ++ (w2 ++ t2))) =
      some (w ++ g1 ++ w2, t2) := by
  obtain ⟨cw, w2x, rfl⟩ : ∃ cw w2x, w2 = cw :: w2x := by
    cases w2 with
    | nil => exact absurd rfl hw2ne
    | cons a b => exact ⟨a, b, rfl⟩
  have hcw : isSpaceChar cw = false := word_not_space (hw2w cw (by simp))
  have hcc1 : ciConsume p1 (w ++ (g1 ++ (cw :: w2x ++ t2))) =
      some (w, g1 ++ (cw :: w2x ++ t2)) := ciConsume_exact _ h1
  have htake : (g1 ++ (cw :: w2x ++ t2)).takeWhile isSpaceChar = g1 := by
    rw [List.takeWhile_append_of_pos hg1sp]
    simp [List.takeWhile_cons, hcw]
  have hdrop : (g1 ++ (cw :: w2x ++ t2)).dropWhile isSpaceChar =
      cw :: w2x ++ t2 := by
    rw [List.dropWhile_append_of_pos hg1sp]
    simp [List.dropWhile_cons, hcw]
  have hg1e : g1.isEmpty = false := by
    cases g1 with
    | nil => exact absurd rfl hg1ne
    | cons a b => rfl
  have hcc2 : ciConsume p2 (cw :: w2x ++ t2) = some (cw :: w2x, t2) :=
    ciConsume_exact _ h2
  rw [matchTwoWords_eval hb hcc1, htake, hdrop, hcc2]
  simp [hg1e, boundaryAfter_of_headNonWord ht]

theorem matchTwoWords_gap_not_space {p1 p2 w g1 : List Char}
    (u : List Char) (prev : Option Char)
    (h1 : w.map Char.toLower = p1.map Char.toLower) (hg1 : gapOnly g1)
    (hns : g1.all isSpaceChar = false) (hp2 : wordOnly p2) (hp2ne : p2 ≠ []) :
    matchTwoWords p1 p2 prev (w ++ (g1 ++ u)) = none := by
  cases hb : boundaryBefore prev with
  | false => simp [matchTwoWords, hb]
  | true =>
    have hcc1 : ciConsume p1 (w ++ (g1 ++ u)) = some (w, g1 ++ u) :=
      ciConsume_exact _ h1
    obtain ⟨d, g12, hsplit⟩ :
        ∃ d g12, g1.dropWhile isSpaceChar = d :: g12 := by
      cases hh : g1.dropWhile isSpaceChar with
      | nil =>
        have : g1.all isSpaceChar = true := by
          rw [List.all_eq_true]
          exact dropWhile_nil_all hh
        rw [this] at hns
        cases hns
      | cons a b => exact ⟨a, b, rfl⟩
    have hd_nonword : isWordChar d = false := by
      apply hg1
      apply mem_of_mem_dropWhile (p := isSpaceChar)
      rw [hsplit]
      simp
    have htake : (g1 ++ u).takeWhile isSpaceChar =
        g1.takeWhile isSpaceChar := by
      rw [List.takeWhile_append]
      rw [if_neg]
      intro hlen
      have hlen2 := congrArg List.length
        (List.takeWhile_append_dropWhile isSpaceChar g1)
      rw [List.length_append, hsplit] at hlen2
      simp at hlen2
      omega
    have hdrop : (g1 ++ u).dropWhile isSpaceChar = (d :: g12) ++ u := by
      rw [List.dropWhile_append]
      rw [hsplit]
      simp
    have hcp2 : ciConsume p2 ((d :: g12) ++ u) = none := by
      rw [List.cons_append]
      exact ciConsume_head_nonword hp2 hp2ne hd_nonword _
    rw [matchTwoWords_eval hb hcc1, htake, hdrop, hcp2]
    cases hts : g1.takeWhile isSpaceChar with
    | nil => simp
    | cons x xs => simp

theorem matchTwoWords_second_fail {p1 p2 w g1 w2 t2 : List Char}
    (prev : Option Char)
    (h1 : w.map Char.toLower = p1.map Char.toLower)
    (hg1ne : g1 ≠ []) (hg1sp : ∀ c ∈ g1, isSpaceChar c = true)
    (hw2w : wordOnly w2) (hw2ne : w2 ≠ []) (hp2 : wordOnly p2)
    (ht : headNonWord t2)
    (hne2 : w2.map Char.toLower ≠ p2.map Char.toLower) :
    matchTwoWords p1 p2 prev (w ++ (g1 ++ (w2 ++ t2))) = none := by
  cases hb : boundaryBefore prev with
  | false => simp [matchTwoWords, hb]
  | true =>
    obtain ⟨cw, w2x, rfl⟩ : ∃ cw w2x, w2 = cw :: w2x := by
      cases w2 with
      | nil => exact absurd rfl hw2ne
      | cons a b => exact ⟨a, b, rfl⟩
    have hcw : isSpaceChar cw = false := word_not_space (hw2w cw (by simp))
    have hcc1 : ciConsume p1 (w ++ (g1 ++ (cw :: w2x ++ t2))) =
        some (w, g1 ++ (cw :: w2x ++ t2)) := ciConsume_exact _ h1
    have htake : (g1 ++ (cw :: w2x ++ t2)).takeWhile isSpaceChar = g1 := by
      rw [List.takeWhile_append_of_pos hg1sp]
      simp [List.takeWhile_cons, hcw]
    have hdrop : (g1 ++ (cw :: w2x ++ t2)).dropWhile isSpaceChar =
        cw :: w2x ++ t2 := by
      rw [List.dropWhile_append_of_pos hg1sp]
      simp [List.dropWhile_cons, hcw]
    rw [matchTwoWords_eval hb hcc1, htake, hdrop]
    cases hcc2 : ciConsume p2 (cw :: w2x ++ t2) with
    | none => simp
    | some mr =>
      obtain ⟨m2, r3⟩ := mr
      have hcc2x : ciConsume p2 ((cw :: w2x) ++ t2) = some (m2, r3) := by
        simpa using hcc2
      rcases ciConsume_word_split hw2w hp2 ht hcc2x with
        ⟨hm, hr⟩ | ⟨d, r4, hr, hd⟩
      · have := (ciConsume_sound hcc2x).2
        rw [hm] at this
        exact absurd this hne2
      · subst hr
        simp [boundaryAfter, hd]

theorem matchTwoWords_p1_end {p1 p2 w g1 : List Char} (prev : Option Char)
    (h1 : w.map Char.toLower = p1.map Char.toLower) (hg1 : gapOnly g1)
    (hp2 : wordOnly p2) (hp2ne : p2 ≠ []) :
    matchTwoWords p1 p2 prev (w ++ g1) = none := by
  cases hb : boundaryBefore prev with
  | false => simp [matchTwoWords, hb]
  | true =>
    have hcc1 : ciConsume p1 (w ++ g1) = some (w, g1) := ciConsume_exact _ h1
    rw [matchTwoWords_eval hb hcc1]
    cases hdw : g1.dropWhile isSpaceChar with
    | nil =>
      have htk : g1.takeWhile isSpaceChar = g1 := by
        have h0 := List.takeWhile_append_dropWhile isSpaceChar g1
        rw [hdw, List.append_nil] at h0
        exact h0
      cases g1 with
      | nil => simp
      | cons a g12 =>
        have hcp2 : ciConsume p2 [] = none := by
          cases p2 with
          | nil => exact absurd rfl hp2ne
          | cons x xs => rfl
        rw [htk, hcp2]
        simp
    | cons d g12 =>
      have hd_nonword : isWordChar d = false := by
        apply hg1
        apply mem_of_mem_dropWhile (p := isSpaceChar)
        rw [hdw]
        simp
      have hcp2 : ciConsume p2 (d :: g12) = none :=
        ciConsume_head_nonword hp2 hp2ne hd_nonword _
      rw [hcp2]
      cases hts : g1.takeWhile isSpaceChar with
      | nil => simp
      | cons x xs => simp

theorem reSubAux_nil {M : Option Char → List Char → Option (List Char × List Char)}
    {R : List Char → List Char}
    (hval : ∀ prev s m r, M prev s = some (m, r) → s = m ++ r ∧ m ≠ [])
    (fuel : Nat) (prev : Option Char) : reSubAux M R fuel prev [] = [] := by
  cases fuel with
  | zero => rfl
  | succ f =>
    unfold reSubAux
    cases hm : M prev [] with
    | none => rfl
    | some mr =>
      obtain ⟨m, r⟩ := mr
      obtain ⟨heq, hne⟩ := hval _ _ _ _ hm
      exact absurd (List.append_eq_nil.mp heq.symm).1 hne

theorem reSubAux_succ_match {M : Option Char → List Char → Option (List Char × List Char)}
    {R : List Char → List Char} {fuel : Nat} {prev : Option Char}
    {s m r : List Char} (hm : M prev s = some (m, r)) :
    reSubAux M R (fuel + 1) prev s = R m ++ reSubAux M R fuel m.getLast? r := by
  conv_lhs => unfold reSubAux
  rw [hm]

theorem reSubAux_succ_skip {M : Option Char → List Char → Option (List Char × List Char)}
    {R : List Char → List Char} {fuel : Nat} {prev : Option Char}
    {c : Char} {cs : List Char} (hm : M prev (c :: cs) = none) :
    reSubAux M R (fuel + 1) prev (c :: cs) =
      c :: reSubAux M R fuel (some c) cs := by
  conv_lhs => unfold reSubAux
  rw [hm]

theorem reSubAux_congr_fuel {M : Option Char → List Char → Option (List Char × List Char)}
    {R : List Char → List Char}
    (hval : ∀ prev s m r, M prev s = some (m, r) → s = m ++ r ∧ m ≠ []) :
    ∀ (f1 f2 : Nat) (prev : Option Char) (s : List Char),
      s.length ≤ f1 → s.length ≤ f2 →
      reSubAux M R f1 prev s = reSubAux M R f2 prev s := by
  intro f1
  induction f1 with
  | zero =>
    intro f2 prev s h1 h2
    have : s = [] := by
      cases s with
      | nil => rfl
      | cons c cs => simp at h1
    subst this
    rw [reSubAux_nil hval, reSubAux_nil hval]
  | succ f1x ih =>
    intro f2 prev s h1 h2
    cases s with
    | nil => rw [reSubAux_nil hval, reSubAux_nil hval]
    | cons c cs =>
      cases f2 with
      | zero => simp at h2
      | succ f2x =>
        cases hm : M prev (c :: cs) with
        | some mr =>
          obtain ⟨m, r⟩ := mr
          obtain ⟨heq, hne⟩ := hval _ _ _ _ hm
          have hlen : r.length + 1 ≤ (c :: cs).length := by
            rw [heq, List.length_append]
            cases m with
            | nil => exact absurd rfl hne
            | cons a b => simp; omega
          rw [reSubAux_succ_match hm, reSubAux_succ_match hm]
          rw [ih f2x m.getLast? r (by simp at hlen h1; omega)
            (by simp at hlen h2; omega)]
        | none =>
          rw [reSubAux_succ_skip hm, reSubAux_succ_skip hm]
          rw [ih f2x (some c) cs (by simp at h1; omega) (by simp at h2; omega)]

theorem reScan_nil {M : Option Char → List Char → Option (List Char × List Char)}
    {R : List Char → List Char} (prev : Option Char) :
    reScan M R prev [] = [] := rfl

theorem reScan_skip {M : Option Char → List Char → Option (List Char × List Char)}
    {R : List Char → List Char} {prev : Option Char} {c : Char}
    {cs : List Char} (hm : M prev (c :: cs) = none) :
    reScan M R prev (c :: cs) = c :: reScan M R (some c) cs :=
  reSubAux_succ_skip hm

theorem reScan_match {M : Option Char → List Char → Option (List Char × List Char)}
    {R : List Char → List Char}
    (hval : ∀ prev s m r, M prev s = some (m, r) → s = m ++ r ∧ m ≠ [])
    {prev : Option Char} {s m r : List Char} (hm : M prev s = some (m, r)) :
    reScan M R prev s = R m ++ reScan M R m.getLast? r := by
  obtain ⟨heq, hne⟩ := hval _ _ _ _ hm
  cases s with
  | nil =>
    exact absurd (List.append_eq_nil.mp heq.symm).1 hne
  | cons c cs =>
    show reSubAux M R (cs.length + 1) prev (c :: cs) = _
    rw [reSubAux_succ_match hm]
    have hlen : r.length + 1 ≤ (c :: cs).length := by
      rw [heq, List.length_append]
      cases m with
      | nil => exact absurd rfl hne
      | cons a b => simp; omega
    rw [reSubAux_congr_fuel hval cs.length r.length m.getLast? r
      (by simp at hlen; omega) (by omega)]
    rfl

theorem prevThrough_nil (prev : Option Char) : prevThrough prev [] = prev :=
  rfl

theorem prevThrough_cons (prev : Option Char) (c : Char) (g : List Char) :
    prevThrough prev (c :: g) = prevThrough (some c) g := by
  cases g with
  | nil => rfl
  | cons d g2 =>
    obtain ⟨x, hx⟩ : ∃ x, (d :: g2).getLast? = some x :=
      ⟨(d :: g2).getLast (by simp), List.getLast?_eq_getLast _ (by simp)⟩
    simp [prevThrough, List.getLast?_cons_cons, hx]

theorem reScan_gap {M : Option Char → List Char → Option (List Char × List Char)}
    {R : List Char → List Char}
    (hnw : ∀ (prev : Option Char) (c : Char) (cs : List Char),
      isWordChar c = false → M prev (c :: cs) = none)
    {g : List Char} (hg : gapOnly g) (prev : Option Char) (t : List Char) :
    reScan M R prev (g ++ t) = g ++ reScan M R (prevThrough prev g) t := by
  induction g generalizing prev with
  | nil => simp [prevThrough_nil]
  | cons c g2 ih =>
    have hc : isWordChar c = false := hg c (by simp)
    rw [List.cons_append, reScan_skip (hnw _ _ _ hc),
      ih (fun d hd => hg d (List.mem_cons_of_mem _ hd)) (some c),
      prevThrough_cons]
    rfl

theorem reScan_word_skip {M : Option Char → List Char → Option (List Char × List Char)}
    {R : List Char → List Char}
    (hbnd : ∀ (c : Char) (s : List Char), isWordChar c = true →
      M (some c) s = none)
    {w : List Char} (hw : wordOnly w) {t : List Char} {prev : Option Char}
    (hstart : M prev (w ++ t) = none) :
    reScan M R prev (w ++ t) = w ++ reScan M R (prevThrough prev w) t := by
  induction w generalizing prev with
  | nil => simp [prevThrough_nil]
  | cons c w2 ih =>
    rw [List.cons_append] at hstart
    have hc : isWordChar c = true := hw c (by simp)
    rw [List.cons_append, reScan_skip hstart,
      ih (fun d hd => hw d (List.mem_cons_of_mem _ hd))
        (hbnd c (w2 ++ t) hc), prevThrough_cons]
    rfl

theorem headNonWord_gap {g u : List Char} (hg : gapOnly g)
    (hext : g = [] → u = []) : headNonWord (g ++ u) := by
  cases g with
  | nil =>
    rw [hext rfl]
    intro c hc
    simp at hc
  | cons c g2 =>
    intro d hd
    simp at hd
    subst hd
    exact hg c (by simp)

theorem headNonWord_of_gapOnly {g : List Char} (hg : gapOnly g) :
    headNonWord g := by
  cases g with
  | nil => intro c hc; simp at hc
  | cons c g2 =>
    intro d hd
    simp at hd
    subst hd
    exact hg c (by simp)

theorem boundary_prevThrough {g : List Char} {prev : Option Char}
    (hg : gapOnly g) (h0 : g = [] → boundaryBefore prev = true) :
    boundaryBefore (prevThrough prev g) = true := by
  cases g with
  | nil => exact h0 rfl
  | cons c g2 =>
    have hne : (c :: g2) ≠ ([] : List Char) := by simp
    have hx : (c :: g2).getLast? = some ((c :: g2).getLast hne) :=
      List.getLast?_eq_getLast _ hne
    have hmem : (c :: g2).getLast hne ∈ c :: g2 := List.getLast_mem hne
    simp [prevThrough, hx, boundaryBefore, hg _ hmem]

theorem reScan_gap_all {M : Option Char → List Char → Option (List Char × List Char)}
    {R : List Char → List Char}
    (hnw : ∀ (prev : Option Char) (c : Char) (cs : List Char),
      isWordChar c = false → M prev (c :: cs) = none)
    {g : List Char} (hg : gapOnly g) (prev : Option Char) :
    reScan M R prev g = g := by
  have h := reScan_gap (R := R) hnw hg prev []
  simpa [reScan_nil] using h

theorem rwWord_reScan {pat : List Char} (R : List Char → List Char)
    (hp : wordOnly pat) (hpne : pat ≠ []) :
    ∀ (items : List (List Char × List Char)) (g : List Char)
      (prev : Option Char), gapOnly g →
      (g = [] → items ≠ [] → boundaryBefore prev = true) → WFitems items →
      reScan (matchWord pat) R prev (g ++ joinItems items) =
        g ++ joinItems (rwWord pat R items) := by
  intro items
  induction items with
  | nil =>
    intro g prev hg h0 hWF
    rw [show joinItems [] = [] from rfl, List.append_nil,
      reScan_gap_all
        (fun prev c cs hc => matchWord_none_of_head_nonword hp hpne prev hc cs)
        hg prev]
    simp [rwWord, joinItems]
  | cons item rest ih =>
    obtain ⟨w, gi⟩ := item
    intro g prev hg h0 hWF
    obtain ⟨hwne, hww, hgi, hint, hWFrest⟩ := hWF
    have hnwM := fun (prev : Option Char) (c : Char) (cs : List Char)
      (hc : isWordChar c = false) =>
      matchWord_none_of_head_nonword hp hpne prev hc cs
    have hb1 : boundaryBefore (prevThrough prev g) = true :=
      boundary_prevThrough hg (fun hnil => h0 hnil (by simp))
    have hjr : gi = [] → joinItems rest = [] := by
      intro hnil
      have hre : rest = [] := by
        by_contra hcon
        exact (hint hcon) hnil
      rw [hre]
      rfl
    have ht : headNonWord (gi ++ joinItems rest) := headNonWord_gap hgi hjr
    rw [show joinItems ((w, gi) :: rest) = w ++ (gi ++ joinItems rest)
      from rfl]
    rw [reScan_gap hnwM hg prev]
    have hvac : ∀ (pv : Option Char), gi = [] → rest ≠ [] →
        boundaryBefore pv = true := fun pv h1 h2 => absurd h1 (hint h2)
    cases hci : ciEqB w pat with
    | true =>
      have hmap := ciEqB_iff.mp hci
      rw [reScan_match (M := matchWord pat) (R := R)
        (fun pv s m r h => matchWord_valid hpne h)
        (matchWord_at_word hb1 hmap ht)]
      rw [ih gi w.getLast? hgi (hvac _) hWFrest]
      simp [rwWord, hci, joinItems]
    | false =>
      have hmap := ciEqB_false_iff.mp hci
      rw [reScan_word_skip
        (fun c s hc => matchWord_none_of_word_prev hc) hww
        (matchWord_at_word_none _ hww hp ht hmap)]
      rw [ih gi (prevThrough (prevThrough prev g) w) hgi (hvac _) hWFrest]
      simp [rwWord, hci, joinItems]

theorem mergeScan_reScan {p1 p2 : List Char} (rep : List Char)
    (hp1 : wordOnly p1) (hp1ne : p1 ≠ []) (hp2 : wordOnly p2)
    (hp2ne : p2 ≠ []) (items : List (List Char × List Char))
    (g : List Char) (prev : Option Char) (hg : gapOnly g)
    (h0 : g = [] → items ≠ [] → boundaryBefore prev = true)
    (hWF : WFitems items) :
    reScan (matchTwoWords p1 p2) (fun _ => rep) prev
        (g ++ joinItems items) =
      g ++ joinItems (mergeScan p1 p2 rep items) := by
  have hnwM := fun (pv : Option Char) (c : Char) (cs : List Char)
    (hc : isWordChar c = false) =>
    @matchTwoWords_none_of_head_nonword p1 p2 hp1 hp1ne pv c hc cs
  have hbndM := fun (c : Char) (s : List Char) (hc : isWordChar c = true) =>
    @matchTwoWords_none_of_word_prev p1 p2 s c hc
  match items with
  | [] =>
    rw [show joinItems [] = [] from rfl, List.append_nil,
      reScan_gap_all hnwM hg prev]
    simp [mergeScan, joinItems]
  | [(w, gi)] =>
    obtain ⟨hwne, hww, hgi, hint, -⟩ := hWF
    have hb1 : boundaryBefore (prevThrough prev g) = true :=
      boundary_prevThrough hg (fun hnil => h0 hnil (by simp))
    have hnom : matchTwoWords p1 p2 (prevThrough prev g) (w ++ gi) = none := by
      cases hci : ciEqB w p1 with
      | true => exact matchTwoWords_p1_end _ (ciEqB_iff.mp hci) hgi hp2 hp2ne
      | false =>
        exact matchTwoWords_not_p1 _ hww hp1 (headNonWord_of_gapOnly hgi)
          (ciEqB_false_iff.mp hci)
    have hj : joinItems [(w, gi)] = w ++ gi := by simp [joinItems]
    rw [hj, reScan_gap hnwM hg prev,
      reScan_word_skip (M := matchTwoWords p1 p2) hbndM hww hnom,
      reScan_gap_all hnwM hgi]
    simp [mergeScan, joinItems]
  | (w, g1) :: (w2, g2) :: rest =>
    obtain ⟨hwne, hww, hg1, hint1, hWF2⟩ := hWF
    have hWF2b : WFitems ((w2, g2) :: rest) := hWF2
    obtain ⟨hw2ne, hw2w, hg2, hint2, hWFrest⟩ := hWF2
    have hg1ne : g1 ≠ [] := hint1 (by simp)
    have hb1 : boundaryBefore (prevThrough prev g) = true :=
      boundary_prevThrough hg (fun hnil => h0 hnil (by simp))
    have hjr : g2 = [] → joinItems rest = [] := by
      intro hnil
      have hre : rest = [] := by
        by_contra hcon
        exact (hint2 hcon) hnil
      rw [hre]
      rfl
    have ht2 : headNonWord (g2 ++ joinItems rest) := headNonWord_gap hg2 hjr
    have hj : joinItems ((w, g1) :: (w2, g2) :: rest) =
        w ++ (g1 ++ (w2 ++ (g2 ++ joinItems rest))) := by
      simp [joinItems]
    rw [hj, reScan_gap hnwM hg prev]
    cases hC : mergeTestB p1 p2 w g1 w2 with
    | true =>
      have hCd := hC
      simp only [mergeTestB, Bool.and_eq_true] at hCd
      obtain ⟨⟨⟨hciw, hg1e⟩, hsp⟩, hciw2⟩ := hCd
      have hsp2 : ∀ c ∈ g1, isSpaceChar c = true := by
        rw [← List.all_eq_true]
        exact hsp
      have hmatch := matchTwoWords_full_match hb1 (ciEqB_iff.mp hciw) hg1ne
        hsp2 (ciEqB_iff.mp hciw2) hw2ne hw2w ht2
      rw [reScan_match (M := matchTwoWords p1 p2) (R := fun _ => rep)
        (fun pv s m r h => matchTwoWords_valid h) hmatch]
      rw [mergeScan_reScan rep hp1 hp1ne hp2 hp2ne rest g2
        (w ++ g1 ++ w2).getLast? hg2
        (fun h1 h2 => absurd h1 (hint2 h2)) hWFrest]
      simp [mergeScan, hC, joinItems]
    | false =>
      have hg1emp : g1.isEmpty = false := by
        cases g1 with
        | nil => exact absurd rfl hg1ne
        | cons a b => rfl
      have hnom : matchTwoWords p1 p2 (prevThrough prev g)
          (w ++ (g1 ++ (w2 ++ (g2 ++ joinItems rest)))) = none := by
        cases hciw : ciEqB w p1 with
        | false =>
          exact matchTwoWords_not_p1 _ hww hp1
            (headNonWord_gap hg1 (fun h1 => absurd h1 hg1ne))
            (ciEqB_false_iff.mp hciw)
        | true =>
          cases hsp : g1.all isSpaceChar with
          | false =>
            exact matchTwoWords_gap_not_space _ _ (ciEqB_iff.mp hciw) hg1
              hsp hp2 hp2ne
          | true =>
            have hciw2 : ciEqB w2 p2 = false := by
              simp only [mergeTestB, hciw, hg1emp, hsp, Bool.not_false,
                Bool.and_true, Bool.true_and] at hC
              exact hC
            have hsp2 : ∀ c ∈ g1, isSpaceChar c = true := by
              rw [← List.all_eq_true]
              exact hsp
            exact matchTwoWords_second_fail _ (ciEqB_iff.mp hciw) hg1ne hsp2
              hw2w hw2ne hp2 ht2 (ciEqB_false_iff.mp hciw2)
      rw [reScan_word_skip (M := matchTwoWords p1 p2) hbndM hww hnom]
      have hrec := mergeScan_reScan rep hp1 hp1ne hp2 hp2ne
        ((w2, g2) :: rest) g1 (prevThrough (prevThrough prev g) w) hg1
        (fun h1 h2 => absurd h1 hg1ne) hWF2b
      rw [show joinItems ((w2, g2) :: rest) = w2 ++ (g2 ++ joinItems rest)
        from rfl] at hrec
      rw [hrec]
      simp [mergeScan, hC, joinItems]
termination_by items.length

theorem WF_rwWord {pat : List Char} {R : List Char → List Char}
    (hrep : ∀ w, R w ≠ [] ∧ wordOnly (R w)) :
    ∀ {items : List (List Char × List Char)}, WFitems items →
      WFitems (rwWord pat R items) := by
  intro items
  induction items with
  | nil => intro h; exact h
  | cons item rest ih =>
    obtain ⟨w, gi⟩ := item
    intro hWF
    obtain ⟨hwne, hww, hgi, hint, hWFrest⟩ := hWF
    refine ⟨?_, ?_, hgi, ?_, ih hWFrest⟩
    · cases hci : ciEqB w pat with
      | true => simp [hci]; exact (hrep w).1
      | false => simp [hci]; exact hwne
    · cases hci : ciEqB w pat with
      | true => simp [hci]; exact (hrep w).2
      | false => simp [hci]; exact hww
    · intro hne
      apply hint
      intro hnil
      rw [hnil] at hne
      simp [rwWord] at hne

theorem mergeScan_eq_nil_iff {p1 p2 rep : List Char}
    {items : List (List Char × List Char)} :
    mergeScan p1 p2 rep items = [] ↔ items = [] := by
  match items with
  | [] => simp [mergeScan]
  | [(w, g)] => simp [mergeScan]
  | (w, g1) :: (w2, g2) :: rest =>
    rw [mergeScan]
    split <;> simp

theorem WF_mergeScan {p1 p2 rep : List Char} (hrne : rep ≠ [])
    (hrw : wordOnly rep) (items : List (List Char × List Char))
    (hWF : WFitems items) : WFitems (mergeScan p1 p2 rep items) := by
  match items with
  | [] => exact hWF
  | [(w, g)] => exact hWF
  | (w, g1) :: (w2, g2) :: rest =>
    obtain ⟨hwne, hww, hg1, hint1, hWF2⟩ := hWF
    have hWF2b : WFitems ((w2, g2) :: rest) := hWF2
    obtain ⟨hw2ne, hw2w, hg2, hint2, hWFrest⟩ := hWF2
    rw [mergeScan]
    split
    · refine ⟨hrne, hrw, hg2, ?_, WF_mergeScan hrne hrw rest hWFrest⟩
      intro hne
      apply hint2
      intro hnil
      rw [hnil, mergeScan_eq_nil_iff.mpr rfl] at hne
      exact hne rfl
    · refine ⟨hwne, hww, hg1, ?_, WF_mergeScan hrne hrw _ hWF2b⟩
      intro hne
      exact hint1 (by simp)
termination_by items.length

theorem exists_decomp (s : List Char) :
    ∃ (g : List Char) (items : List (List Char × List Char)),
      gapOnly g ∧ WFitems items ∧ s = g ++ joinItems items := by
  induction s with
  | nil => exact ⟨[], [], fun c hc => absurd hc (by simp), trivial, rfl⟩
  | cons c cs ih =>
    obtain ⟨g, items, hg, hWF, hjoin⟩ := ih
    cases hw : isWordChar c with
    | false =>
      refine ⟨c :: g, items, ?_, hWF, by rw [hjoin]; rfl⟩
      intro d hd
      rcases List.mem_cons.mp hd with rfl | hd2
      · exact hw
      · exact hg d hd2
    | true =>
      cases g with
      | nil =>
        cases items with
        | nil =>
          refine ⟨[], [([c], [])], fun d hd => absurd hd (by simp),
            ⟨by simp, ?_, ?_, by simp, trivial⟩, ?_⟩
          · intro d hd
            rcases List.mem_cons.mp hd with rfl | hd2
            · exact hw
            · simp at hd2
          · intro d hd
            simp at hd
          · simp at hjoin
            rw [hjoin]
            rfl
        | cons item rest =>
          obtain ⟨w, gi⟩ := item
          obtain ⟨hwne, hww, hgi, hint, hWFrest⟩ := hWF
          refine ⟨[], (c :: w, gi) :: rest,
            fun d hd => absurd hd (by simp),
            ⟨by simp, ?_, hgi, fun hne => hint hne, hWFrest⟩, ?_⟩
          · intro d hd
            rcases List.mem_cons.mp hd with rfl | hd2
            · exact hw
            · exact hww d hd2
          · simp at hjoin
            rw [hjoin]
            rfl
      | cons d g2 =>
        refine ⟨[], ([c], d :: g2) :: items,
          fun e he => absurd he (by simp),
          ⟨by simp, ?_, hg, fun _ => by simp, hWF⟩, ?_⟩
        · intro e he
          rcases List.mem_cons.mp he with rfl | he2
          · exact hw
          · simp at he2
        · rw [hjoin]
          rfl

theorem rwWord_id {pat : List Char} {R : List Char → List Char}
    {items : List (List Char × List Char)} (h : noWordCi pat items) :
    rwWord pat R items = items := by
  induction items with
  | nil => rfl
  | cons item rest ih =>
    obtain ⟨w, gi⟩ := item
    have hci : ciEqB w pat = false := h (w, gi) (by simp)
    have hrest : noWordCi pat rest := fun wg hwg => h wg (by simp [hwg])
    simp [rwWord, hci]
    simpa [rwWord] using ih hrest

theorem rwWord_id_exact {pat target : List Char}
    {items : List (List Char × List Char)}
    (h : allCiExact pat target items) :
    rwWord pat (fun _ => target) items = items := by
  induction items with
  | nil => rfl
  | cons item rest ih =>
    obtain ⟨w, gi⟩ := item
    have hrest : allCiExact pat target rest :=
      fun wg hwg => h wg (by simp [hwg])
    cases hci : ciEqB w pat with
    | true =>
      have hw : w = target := h (w, gi) (by simp) hci
      simp [rwWord, hci, hw]
      simpa [rwWord] using ih hrest
    | false =>
      simp [rwWord, hci]
      simpa [rwWord] using ih hrest

theorem mergeScan_id {p1 p2 rep : List Char}
    (items : List (List Char × List Char)) (h : noMergePair p1 p2 items) :
    mergeScan p1 p2 rep items = items := by
  match items with
  | [] => rfl
  | [(w, g)] => rfl
  | (w, g1) :: (w2, g2) :: rest =>
    have hpair : pairOK p1 p2 (w, g1) (w2, g2) :=
      (List.chain'_cons.mp h).1
    have htail : noMergePair p1 p2 ((w2, g2) :: rest) :=
      (List.chain'_cons.mp h).2
    rw [mergeScan, if_neg (by simp [pairOK] at hpair; simp [hpair])]
    rw [mergeScan_id ((w2, g2) :: rest) htail]
termination_by items.length

theorem rwWord_estab_noWordCi {pat : List Char} {R : List Char → List Char}
    (hrep : ∀ w, ciEqB (R w) pat = false)
    (items : List (List Char × List Char)) :
    noWordCi pat (rwWord pat R items) := by
  intro wg hwg
  rw [rwWord, List.mem_map] at hwg
  obtain ⟨x, hx, hfx⟩ := hwg
  cases hci : ciEqB x.1 pat with
  | true =>
    rw [← hfx]
    simp [hci]
    exact hrep x.1
  | false =>
    rw [← hfx]
    simp [hci]

theorem rwWord_estab_allCiExact {pat target : List Char}
    (items : List (List Char × List Char)) :
    allCiExact pat target (rwWord pat (fun _ => target) items) := by
  intro wg hwg hci
  rw [rwWord, List.mem_map] at hwg
  obtain ⟨x, hx, hfx⟩ := hwg
  cases hcx : ciEqB x.1 pat with
  | true =>
    rw [← hfx]
    simp [hcx]
  | false =>
    rw [← hfx] at hci
    simp [hcx] at hci

theorem rwWord_pres_noWordCi {pat q : List Char} {R : List Char → List Char}
    (hrep : ∀ w, ciEqB (R w) q = false)
    {items : List (List Char × List Char)} (h : noWordCi q items) :
    noWordCi q (rwWord pat R items) := by
  intro wg hwg
  rw [rwWord, List.mem_map] at hwg
  obtain ⟨x, hx, hfx⟩ := hwg
  cases hci : ciEqB x.1 pat with
  | true =>
    rw [← hfx]
    simp [hci]
    exact hrep x.1
  | false =>
    rw [← hfx]
    simp [hci]
    exact h x hx

theorem mergeScan_head {p1 p2 rep : List Char}
    (a : List Char × List Char) (l : List (List Char × List Char)) :
    (mergeScan p1 p2 rep (a :: l)).head? = some a ∨
      ∃ gx, (mergeScan p1 p2 rep (a :: l)).head? = some (rep, gx) := by
  obtain ⟨w, g1⟩ := a
  match l with
  | [] => left; rfl
  | (w2, g2) :: rest =>
    rw [mergeScan]
    split
    · right
      exact ⟨g2, rfl⟩
    · left
      rfl

theorem mergeScan_estab {p1 p2 rep : List Char}
    (hr1 : ciEqB rep p1 = false) (hr2 : ciEqB rep p2 = false)
    (items : List (List Char × List Char)) :
    noMergePair p1 p2 (mergeScan p1 p2 rep items) := by
  match items with
  | [] => exact List.chain'_nil
  | [(w, g)] => exact List.chain'_singleton _
  | (w, g1) :: (w2, g2) :: rest =>
    rw [mergeScan]
    split
    · refine List.chain'_cons'.mpr ⟨?_, ?_⟩
      · intro y hy
        simp [pairOK, mergeTestB, hr1]
      · exact mergeScan_estab hr1 hr2 rest
    · rename_i hC
      refine List.chain'_cons'.mpr ⟨?_, ?_⟩
      · intro y hy
        rcases mergeScan_head (w2, g2) rest with hh | ⟨gx, hh⟩
        · rw [hh] at hy
          simp at hy
          subst hy
          simpa [pairOK] using hC
        · rw [hh] at hy
          simp at hy
          subst hy
          simp [pairOK, mergeTestB, hr2]
      · exact mergeScan_estab hr1 hr2 ((w2, g2) :: rest)
termination_by items.length

theorem mergeScan_words {p1 p2 rep : List Char}
    (items : List (List Char × List Char))
    (wg : List Char × List Char) (h : wg ∈ mergeScan p1 p2 rep items) :
    wg.1 = rep ∨ ∃ g0, (wg.1, g0) ∈ items := by
  match items with
  | [] => simp [mergeScan] at h
  | [(w, g)] =>
    simp [mergeScan] at h
    subst h
    right
    exact ⟨g, by simp⟩
  | (w, g1) :: (w2, g2) :: rest =>
    rw [mergeScan] at h
    split at h
    · rcases List.mem_cons.mp h with rfl | h2
      · left; rfl
      · rcases mergeScan_words rest wg h2 with hl | ⟨g0, hr⟩
        · left; exact hl
        · right; exact ⟨g0, by simp [hr]⟩
    · rcases List.mem_cons.mp h with rfl | h2
      · right; exact ⟨g1, by simp⟩
      · rcases mergeScan_words ((w2, g2) :: rest) wg h2 with hl | ⟨g0, hr⟩
        · left; exact hl
        · rcases List.mem_cons.mp hr with he | h3
          · right
            refine ⟨g2, ?_⟩
            rw [show wg.1 = w2 from by injection he]
            simp
          · right; exact ⟨g0, by simp [h3]⟩
termination_by items.length

theorem mergeScan_pres_noWordCi {p1 p2 rep q : List Char}
    (hrq : ciEqB rep q = false) {items : List (List Char × List Char)}
    (h : noWordCi q items) : noWordCi q (mergeScan p1 p2 rep items) := by
  intro wg hwg
  rcases mergeScan_words items wg hwg with hl | ⟨g0, hr⟩
  · rw [hl]; exact hrq
  · exact h (wg.1, g0) hr

theorem mergeScan_pres_allCiExact {p1 p2 rep q target : List Char}
    (hrq : ciEqB rep q = false) {items : List (List Char × List Char)}
    (h : allCiExact q target items) :
    allCiExact q target (mergeScan p1 p2 rep items) := by
  intro wg hwg hci
  rcases mergeScan_words items wg hwg with hl | ⟨g0, hr⟩
  · rw [hl] at hci
    rw [hci] at hrq
    cases hrq
  · exact h (wg.1, g0) hr hci

theorem rwWord_pres_noMergePair {pat q1 q2 : List Char}
    {R : List Char → List Char}
    (h1 : ∀ w, ciEqB (R w) q1 = false) (h2 : ∀ w, ciEqB (R w) q2 = false)
    {items : List (List Char × List Char)} (h : noMergePair q1 q2 items) :
    noMergePair q1 q2 (rwWord pat R items) := by
  apply List.chain'_map_of_chain' _ _ h
  intro a b hab
  unfold pairOK at hab ⊢
  cases hca : ciEqB a.1 pat with
  | true =>
    simp [hca, mergeTestB, h1 a.1]
  | false =>
    cases hcb : ciEqB b.1 pat with
    | true =>
      simp only [hca, hcb, if_true, if_neg Bool.false_ne_true]
      simp [mergeTestB, h2 b.1]
    | false =>
      simp only [hca, hcb, if_neg Bool.false_ne_true]
      exact hab

theorem mergeScan_pres_noMergePair {p1 p2 rep q1 q2 : List Char}
    (hr1 : ciEqB rep q1 = false) (hr2 : ciEqB rep q2 = false)
    (items : List (List Char × List Char))
    (h : noMergePair q1 q2 items) :
    noMergePair q1 q2 (mergeScan p1 p2 rep items) := by
  match items with
  | [] => exact List.chain'_nil
  | [(w, g)] => exact List.chain'_singleton _
  | (w, g1) :: (w2, g2) :: rest =>
    have hpair : pairOK q1 q2 (w, g1) (w2, g2) := (List.chain'_cons.mp h).1
    have htail : noMergePair q1 q2 ((w2, g2) :: rest) :=
      (List.chain'_cons.mp h).2
    have htail2 : noMergePair q1 q2 rest := htail.tail
    rw [mergeScan]
    split
    · refine List.chain'_cons'.mpr ⟨?_, ?_⟩
      · intro y hy
        simp [pairOK, mergeTestB, hr1]
      · exact mergeScan_pres_noMergePair hr1 hr2 rest htail2
    · refine List.chain'_cons'.mpr ⟨?_, ?_⟩
      · intro y hy
        rcases mergeScan_head (w2, g2) rest with hh | ⟨gx, hh⟩
        · rw [hh] at hy
          simp at hy
          subst hy
          exact hpair
        · rw [hh] at hy
          simp at hy
          subst hy
          simp [pairOK, mergeTestB, hr2]
      · exact mergeScan_pres_noMergePair hr1 hr2 ((w2, g2) :: rest) htail
termination_by items.length

theorem const_rep_word {rep : List Char} (h1 : rep ≠ []) (h2 : wordOnly rep)
    (w : List Char) :
    (fun _ : List Char => rep) w ≠ [] ∧ wordOnly ((fun _ : List Char => rep) w) :=
  ⟨h1, h2⟩

theorem const_ci_false {rep X : List Char} (h : ciEqB rep X = false)
    (w : List Char) : ciEqB ((fun _ : List Char => rep) w) X = false := h

theorem caseAwareCli_cases (w : List Char) :
    caseAwareCli w = "CLI".data ∨ caseAwareCli w = "cli".data ∨
      caseAwareCli w = "Cli".data := by
  unfold caseAwareCli
  split_ifs <;> simp

theorem caseAwareCli_not_ci {X : List Char}
    (h1 : ciEqB "CLI".data X = false) (h2 : ciEqB "cli".data X = false)
    (h3 : ciEqB "Cli".data X = false) (w : List Char) :
    ciEqB (caseAwareCli w) X = false := by
  rcases caseAwareCli_cases w with h | h | h <;> rw [h] <;> assumption

theorem caseAwareCli_word (w : List Char) :
    caseAwareCli w ≠ [] ∧ wordOnly (caseAwareCli w) := by
  rcases caseAwareCli_cases w with h | h | h <;> rw [h] <;>
    exact ⟨by decide, by decide⟩

theorem WF_tokPipe {items : List (List Char × List Char)}
    (hWF : WFitems items) : WFitems (tokPipe items) := by
  unfold tokPipe
  apply WF_mergeScan (by decide) (by decide)
  apply WF_rwWord (R := fun _ => "fallback".data)
    (const_rep_word (by decide) (by decide))
  apply WF_rwWord (R := caseAwareCli) caseAwareCli_word
  apply WF_mergeScan (by decide) (by decide)
  exact WF_rwWord (R := fun _ => "subagent".data)
    (const_rep_word (by decide) (by decide)) hWF

theorem normalizeTermsL_decomp (g : List Char)
    (items : List (List Char × List Char)) (hg : gapOnly g)
    (hWF : WFitems items) :
    normalizeTermsL (g ++ joinItems items) = g ++ joinItems (tokPipe items) := by
  have hWF1 := @WF_rwWord "SubsiderAgent".data (fun _ => "subagent".data)
    (const_rep_word (by decide) (by decide)) items hWF
  have hWF2 := @WF_mergeScan "Subsider".data "Agent".data "subagent".data
    (by decide) (by decide) _ hWF1
  have hWF3 := @WF_rwWord "CLA".data caseAwareCli caseAwareCli_word _ hWF2
  have hWF4 := @WF_rwWord "Fallback".data (fun _ => "fallback".data)
    (const_rep_word (by decide) (by decide)) _ hWF3
  have e1 := @rwWord_reScan "SubsiderAgent".data
    (fun _ => "subagent".data) (by decide) (by decide) items g none hg
    (fun _ _ => rfl) hWF
  have e2 := @mergeScan_reScan "Subsider".data "Agent".data
    "subagent".data (by decide) (by decide) (by decide) (by decide) _ g none
    hg (fun _ _ => rfl) hWF1
  have e3 := @rwWord_reScan "CLA".data caseAwareCli (by decide)
    (by decide) _ g none hg (fun _ _ => rfl) hWF2
  have e4 := @rwWord_reScan "Fallback".data
    (fun _ => "fallback".data) (by decide) (by decide) _ g none hg
    (fun _ _ => rfl) hWF3
  have e5 := @mergeScan_reScan "Open".data "claw".data
    "OpenClaw".data (by decide) (by decide) (by decide) (by decide) _ g none
    hg (fun _ _ => rfl) hWF4
  simp only [normalizeTermsL]
  rw [show reSub (matchWord "SubsiderAgent".data) (fun _ => "subagent".data)
    (g ++ joinItems items) = g ++ joinItems
    (rwWord "SubsiderAgent".data (fun _ => "subagent".data) items) from e1]
  rw [show reSub (matchTwoWords "Subsider".data "Agent".data)
    (fun _ => "subagent".data) _ = _ from e2]
  rw [show reSub (matchWord "CLA".data) caseAwareCli _ = _ from e3]
  rw [show reSub (matchWord "Fallback".data) (fun _ => "fallback".data) _ = _
    from e4]
  rw [show reSub (matchTwoWords "Open".data "claw".data)
    (fun _ => "OpenClaw".data) _ = _ from e5]
  rfl

theorem tokPipe_idem (items : List (List Char × List Char)) :
    tokPipe (tokPipe items) = tokPipe items := by
  have hA : noWordCi "SubsiderAgent".data (tokPipe items) := by
    unfold tokPipe
    apply mergeScan_pres_noWordCi (by decide)
    apply rwWord_pres_noWordCi (const_ci_false (by decide))
    apply rwWord_pres_noWordCi
      (caseAwareCli_not_ci (by decide) (by decide) (by decide))
    apply mergeScan_pres_noWordCi (by decide)
    exact rwWord_estab_noWordCi (const_ci_false (by decide)) items
  have hB : noMergePair "Subsider".data "Agent".data (tokPipe items) := by
    unfold tokPipe
    apply mergeScan_pres_noMergePair (by decide) (by decide)
    apply rwWord_pres_noMergePair (const_ci_false (by decide))
      (const_ci_false (by decide))
    apply rwWord_pres_noMergePair
      (caseAwareCli_not_ci (by decide) (by decide) (by decide))
      (caseAwareCli_not_ci (by decide) (by decide) (by decide))
    exact mergeScan_estab (by decide) (by decide) _
  have hC : noWordCi "CLA".data (tokPipe items) := by
    unfold tokPipe
    apply mergeScan_pres_noWordCi (by decide)
    apply rwWord_pres_noWordCi (const_ci_false (by decide))
    exact rwWord_estab_noWordCi
      (caseAwareCli_not_ci (by decide) (by decide) (by decide)) _
  have hD : allCiExact "Fallback".data "fallback".data (tokPipe items) := by
    unfold tokPipe
    apply mergeScan_pres_allCiExact (by decide)
    exact rwWord_estab_allCiExact _
  have hE : noMergePair "Open".data "claw".data (tokPipe items) :=
    mergeScan_estab (by decide) (by decide) _
  set out := tokPipe items with hout
  conv_lhs => unfold tokPipe
  rw [rwWord_id hA, mergeScan_id _ hB, rwWord_id hC, rwWord_id_exact hD,
    mergeScan_id _ hE]

theorem normalizeTermsL_idem (l : List Char) :
    normalizeTermsL (normalizeTermsL l) = normalizeTermsL l := by
  obtain ⟨g, items, hg, hWF, rfl⟩ := exists_decomp l
  rw [normalizeTermsL_decomp g items hg hWF,
    normalizeTermsL_decomp g (tokPipe items) hg (WF_tokPipe hWF),
    tokPipe_idem]

/-- C1: the term normalizer is idempotent: for every input string,
applying the ordered list of five regex substitutions a second time never
changes the output of the first application. -/
theorem normalize_terms_idempotent (s : String) :
    normalizeTerms (normalizeTerms s) = normalizeTerms s :=
  congrArg String.mk (normalizeTermsL_idem s.data)

theorem tokPipe_single_subagent {m : List Char}
    (hm : m.map Char.toLower = "subsideragent".data) :
    tokPipe [(m, [])] = [("subagent".data, [])] := by
  have hci : ciEqB m "SubsiderAgent".data = true := by
    unfold ciEqB
    rw [hm]
    decide
  have hstage1 : rwWord "SubsiderAgent".data (fun _ => "subagent".data)
      [(m, [])] = [("subagent".data, [])] := by
    simp [rwWord, hci]
  unfold tokPipe
  rw [hstage1]
  decide

theorem tokPipe_pair_subagent {m1 m2 : List Char}
    (hm1 : m1.map Char.toLower = "subsider".data)
    (hm2 : m2.map Char.toLower = "agent".data) :
    tokPipe [(m1, [' ']), (m2, [])] = [("subagent".data, [])] := by
  have hci1 : ciEqB m1 "SubsiderAgent".data = false := by
    unfold ciEqB
    rw [hm1]
    decide
  have hci2 : ciEqB m2 "SubsiderAgent".data = false := by
    unfold ciEqB
    rw [hm2]
    decide
  have hc1 : ciEqB m1 "Subsider".data = true := by
    unfold ciEqB
    rw [hm1]
    decide
  have hc2 : ciEqB m2 "Agent".data = true := by
    unfold ciEqB
    rw [hm2]
    decide
  have hstage1 : rwWord "SubsiderAgent".data (fun _ => "subagent".data)
      [(m1, [' ']), (m2, [])] = [(m1, [' ']), (m2, [])] := by
    simp [rwWord, hci1, hci2]
  have hstage2 : mergeScan "Subsider".data "Agent".data "subagent".data
      [(m1, [' ']), (m2, [])] = [("subagent".data, [])] := by
    rw [mergeScan]
    rw [if_pos (by simp [mergeTestB, hc1, hc2]; decide)]
    rfl
  unfold tokPipe
  rw [hstage1, hstage2]
  decide

theorem length_ne_zero_of_map_eq {m pat : List Char}
    (h : m.map Char.toLower = pat) (hp : pat ≠ []) : m ≠ [] := by
  intro hnil
  rw [hnil] at h
  exact hp h.symm

/-- C9: the compound-term rules rewrite case-insensitive whole-word matches:
`normalize("Open claw")` yields `"OpenClaw"`, and every case variant of the
single-token spelling `SubsiderAgent` and of the space-separated spelling
`Subsider Agent` yields `"subagent"`. -/
theorem compound_term_rules :
    normalizeTerms "Open claw" = "OpenClaw" ∧
    (∀ m : List Char, m.map Char.toLower = "subsideragent".data →
      normalizeTermsL m = "subagent".data) ∧
    (∀ m1 m2 : List Char, m1.map Char.toLower = "subsider".data →
      m2.map Char.toLower = "agent".data →
      normalizeTermsL (m1 ++ ' ' :: m2) = "subagent".data) := by
  refine ⟨by decide, ?_, ?_⟩
  · intro m hm
    have hmw : wordOnly m := by
      apply @wordOnly_of_ciEq m "subsideragent".data
      · rw [hm]
        decide
      · decide
    have hmne : m ≠ [] := length_ne_zero_of_map_eq hm (by decide)
    have hWF : WFitems [(m, [])] := by
      refine ⟨hmne, hmw, ?_, fun h => absurd rfl h, trivial⟩
      intro c hc
      simp at hc
    have hj : m = [] ++ joinItems [(m, [])] := by
      simp [joinItems]
    rw [hj, normalizeTermsL_decomp [] [(m, [])]
      (fun c hc => absurd hc (by simp)) hWF, tokPipe_single_subagent hm]
    decide
  · intro m1 m2 hm1 hm2
    have hm1w : wordOnly m1 := by
      apply @wordOnly_of_ciEq m1 "subsider".data
      · rw [hm1]
        decide
      · decide
    have hm2w : wordOnly m2 := by
      apply @wordOnly_of_ciEq m2 "agent".data
      · rw [hm2]
        decide
      · decide
    have hm1ne : m1 ≠ [] := length_ne_zero_of_map_eq hm1 (by decide)
    have hm2ne : m2 ≠ [] := length_ne_zero_of_map_eq hm2 (by decide)
    have hWF : WFitems [(m1, [' ']), (m2, [])] := by
      refine ⟨hm1ne, hm1w, ?_, fun _ => by simp,
        hm2ne, hm2w, ?_, fun h => absurd rfl h, trivial⟩
      · intro c hc
        simp at hc
        subst hc
        decide
      · intro c hc
        simp at hc
    have hj : m1 ++ ' ' :: m2 = [] ++ joinItems [(m1, [' ']), (m2, [])] := by
      simp [joinItems]
    rw [hj, normalizeTermsL_decomp [] [(m1, [' ']), (m2, [])]
      (fun c hc => absurd hc (by simp)) hWF, tokPipe_pair_subagent hm1 hm2]
    decide

theorem compound_term_rules_witness :
    ("SUBSIDERAGENT".data.map Char.toLower = "subsideragent".data ∧
      normalizeTermsL "SUBSIDERAGENT".data = "subagent".data) ∧
    ("SUBSIDER".data.map Char.toLower = "subsider".data ∧
      "AgEnT".data.map Char.toLower = "agent".data ∧
      normalizeTermsL ("SUBSIDER".data ++ ' ' :: "AgEnT".data) =
        "subagent".data) := by
  refine ⟨⟨by decide, ?_⟩, by decide, by decide, ?_⟩
  · exact compound_term_rules.2.1 "SUBSIDERAGENT".data (by decide)
  · exact compound_term_rules.2.2 "SUBSIDER".data "AgEnT".data (by decide)
      (by decide)
